import Mathlib

/-!
# Verification of the dom5 traversal and mutation engine

A shallow embedding of the dom5 library (Polymer/dom5): the parse5-style
DOM tree data model, the depth-first / reverse-postorder / prior-order
iterators (`src/iteration.ts`, `src/walking.ts`), the predicate
combinators and text matchers (`dom5.ts`, `dom5.js`), the `normalize`
text collapser, and the heap-based mutation engine
(`insertNode` / `insertBefore` / `append` / `replace` / `remove`).

Two models are used:

* a pure tree model (`DNode`), for the iterators, predicates and
  `normalize`, with a zipper (`Crumb`) supplying the `parentNode`
  back-references that the prior-order iterator follows upward;
* a heap model (`Heap` = list of node records addressed by index), for
  the mutation engine, which updates `childNodes` arrays and
  `parentNode` back-references in place.
-/

namespace Dom5

/-! ## Pure tree model

A parse5 AST node: `nodeName`, optional `tagName` (elements), `value`
(text nodes), `data` (comments), an ordered attribute list, an optional
`childNodes` sequence (`DChildren.noList` models an absent array,
distinct from an empty one) and, for `<template>` elements, the
`childNodes` of the hidden content fragment. -/

structure Attr where
  name : String
  value : String
deriving DecidableEq, Repr

structure NInfo where
  nodeName : String
  tagName : Option String
  value : String
  data : String
  attrs : List Attr
deriving DecidableEq, Repr

mutual
inductive DNode where
  | mk (info : NInfo) (childNodes : DChildren) (content : DChildren)

inductive DChildren where
  | noList : DChildren
  | list : DNodeList → DChildren

inductive DNodeList where
  | nil : DNodeList
  | cons (head : DNode) (tail : DNodeList) : DNodeList
end

namespace DNodeList

def toList : DNodeList → List DNode
  | .nil => []
  | .cons x xs => x :: toList xs

def ofList : List DNode → DNodeList
  | [] => .nil
  | x :: xs => .cons x (ofList xs)

def append : DNodeList → DNodeList → DNodeList
  | .nil, ys => ys
  | .cons x xs, ys => .cons x (append xs ys)

def length : DNodeList → Nat
  | .nil => 0
  | .cons _ xs => length xs + 1

end DNodeList

def DNode.info : DNode → NInfo
  | .mk i _ _ => i

def DNode.childNodes : DNode → DChildren
  | .mk _ c _ => c

def DNode.content : DNode → DChildren
  | .mk _ _ t => t

def DNode.value (n : DNode) : String := n.info.value

def DNode.nodeData (n : DNode) : String := n.info.data

instance : Inhabited DNode := ⟨.mk ⟨"", none, "", "", []⟩ .noList .noList⟩

/-! Kind predicates, from `dom5.ts` (`isElement` compares `nodeName`
with `tagName`; the others compare `nodeName` with a sentinel). -/

def isElement (n : DNode) : Bool :=
  match n.info.tagName with
  | some t => n.info.nodeName == t
  | none => false

def isDocument (n : DNode) : Bool := n.info.nodeName == "#document"

def isDocumentFragment (n : DNode) : Bool :=
  n.info.nodeName == "#document-fragment"

def isTextNode (n : DNode) : Bool := n.info.nodeName == "#text"

def isCommentNode (n : DNode) : Bool := n.info.nodeName == "#comment"

/-! ## Child accessors and depth-first iterators (`src/iteration.ts`)

`defaultChildNodes` returns the node's own `childNodes`;
`childNodesIncludeTemplate` substitutes the hidden content fragment's
`childNodes` on `<template>` elements. -/

inductive Accessor where
  | default : Accessor
  | includeTemplate : Accessor
deriving DecidableEq, Repr

def getChildNodes : Accessor → DNode → DChildren
  | .default, n => n.childNodes
  | .includeTemplate, n =>
      if n.info.nodeName == "template" then n.content else n.childNodes

/-- The child list an accessor sees, with an absent array read as `[]`
(used only in statements; the iterators below distinguish the cases
exactly as the source does). -/
def childListOf (acc : Accessor) (n : DNode) : List DNode :=
  match getChildNodes acc n with
  | .noList => []
  | .list l => l.toList

mutual
/-- `depthFirst` from `src/iteration.ts`: yield the node, then each
child's depth-first sequence in child order; an absent `childNodes`
yields nothing further. -/
def depthFirst : Accessor → DNode → List DNode
  | .default, .mk i c t => .mk i c t :: dfChildren .default c
  | .includeTemplate, .mk i c t =>
      .mk i c t ::
        (if i.nodeName == "template" then dfChildren .includeTemplate t
         else dfChildren .includeTemplate c)

def dfChildren : Accessor → DChildren → List DNode
  | _, .noList => []
  | acc, .list l => dfList acc l

def dfList : Accessor → DNodeList → List DNode
  | _, .nil => []
  | acc, .cons x xs => depthFirst acc x ++ dfList acc xs
end

mutual
/-- `depthFirstReversed` from `src/iteration.ts`: each child's reversed
sequence in reverse child order, then the node itself last. -/
def depthFirstReversed : Accessor → DNode → List DNode
  | .default, .mk i c t => dfrChildren .default c ++ [.mk i c t]
  | .includeTemplate, .mk i c t =>
      (if i.nodeName == "template" then dfrChildren .includeTemplate t
       else dfrChildren .includeTemplate c) ++ [.mk i c t]

def dfrChildren : Accessor → DChildren → List DNode
  | _, .noList => []
  | acc, .list l => dfrList acc l

/-- The `reversedView` loop of `depthFirstReversed`: later children are
traversed first. -/
def dfrList : Accessor → DNodeList → List DNode
  | _, .nil => []
  | acc, .cons x xs => dfrList acc xs ++ depthFirstReversed acc x
end

mutual
/-- Reference node count by structural recursion (spec §8 wording: the
node itself plus each accessed child's count). -/
def sizeCount : Accessor → DNode → Nat
  | .default, .mk _ c _ => ncChildren .default c + 1
  | .includeTemplate, .mk i c t =>
      (if i.nodeName == "template" then ncChildren .includeTemplate t
       else ncChildren .includeTemplate c) + 1

def ncChildren : Accessor → DChildren → Nat
  | _, .noList => 0
  | acc, .list l => ncList acc l

def ncList : Accessor → DNodeList → Nat
  | _, .nil => 0
  | acc, .cons x xs => sizeCount acc x + ncList acc xs
end

/-! ## Predicate combinators (`dom5.ts` / `dom5.js`) -/

def Predicate : Type := DNode → Bool

/-- The loop body of `AND`: return `false` at the first failing rule,
`true` once the rules are exhausted. -/
def andLoop : List Predicate → DNode → Bool
  | [], _ => true
  | r :: rs, n => if r n then andLoop rs n else false

/-- `AND` from `dom5.ts`: conjunction of a list of predicates. -/
def AND (rules : List Predicate) : Predicate := fun n => andLoop rules n

/-- The loop body of `OR`: return `true` at the first succeeding rule,
`false` once the rules are exhausted. -/
def orLoop : List Predicate → DNode → Bool
  | [], _ => false
  | r :: rs, n => if r n then true else orLoop rs n

/-- `OR` from `dom5.ts`: disjunction of a list of predicates. -/
def OR (rules : List Predicate) : Predicate := fun n => orLoop rules n

/-! ## Claim C8 and C9 theorems -/

theorem dfList_eq_flatMap (acc : Accessor) :
    (l : DNodeList) → dfList acc l = l.toList.flatMap (depthFirst acc)
  | .nil => by simp [dfList, DNodeList.toList]
  | .cons x xs => by
      simp [dfList, DNodeList.toList, dfList_eq_flatMap acc xs]

theorem depthFirst_cons (acc : Accessor) (n : DNode) :
    depthFirst acc n = n :: dfChildren acc (getChildNodes acc n) := by
  cases n with
  | mk i c t =>
    cases acc <;>
      simp only [depthFirst, getChildNodes, DNode.content, DNode.childNodes,
        DNode.info] <;>
    split <;> rfl

theorem dfChildren_eq (acc : Accessor) (n : DNode) :
    dfChildren acc (getChildNodes acc n) =
      (childListOf acc n).flatMap (depthFirst acc) := by
  unfold childListOf
  cases h : getChildNodes acc n with
  | noList => simp [dfChildren]
  | list l => simp [dfChildren, dfList_eq_flatMap]

/-- Helper: `depthFirst` unfolds to the reference preorder listing. -/
theorem depthFirst_eq_preorder (acc : Accessor) (n : DNode) :
    depthFirst acc n = n :: (childListOf acc n).flatMap (depthFirst acc) := by
  rw [depthFirst_cons, dfChildren_eq]

mutual
theorem depthFirst_length : (acc : Accessor) → (n : DNode) →
    (depthFirst acc n).length = sizeCount acc n
  | .default, .mk i c t => by
      simp only [depthFirst, sizeCount, List.length_cons]
      rw [dfChildren_length .default c]
  | .includeTemplate, .mk i c t => by
      simp only [depthFirst, sizeCount, List.length_cons]
      split <;> rw [dfChildren_length .includeTemplate]

theorem dfChildren_length : (acc : Accessor) → (c : DChildren) →
    (dfChildren acc c).length = ncChildren acc c
  | _, .noList => by simp [dfChildren, ncChildren]
  | acc, .list l => by
      simp only [dfChildren, ncChildren]
      exact dfList_length acc l

theorem dfList_length : (acc : Accessor) → (l : DNodeList) →
    (dfList acc l).length = ncList acc l
  | _, .nil => by simp [dfList, ncList]
  | acc, .cons x xs => by
      simp only [dfList, ncList, List.length_append]
      rw [depthFirst_length acc x, dfList_length acc xs]
end

/-- C8: `depthFirst` on any tree and any child accessor yields the
reference preorder listing — the root first, then each accessed child's
preorder listing in child order; consequently the first yielded node is
the root argument and the number of yields is the node count of the
tree. -/
theorem depthFirst_preorder_spec (acc : Accessor) (n : DNode) :
    depthFirst acc n = n :: (childListOf acc n).flatMap (depthFirst acc) ∧
    (depthFirst acc n).head? = some n ∧
    (depthFirst acc n).length = sizeCount acc n := by
  refine ⟨depthFirst_eq_preorder acc n, ?_, depthFirst_length acc n⟩
  rw [depthFirst_cons]
  rfl

/-- C9: the empty predicate combinations are boolean identities —
`AND` of zero predicates is constantly `true`, `OR` of zero predicates
is constantly `false`. -/
theorem and_or_empty_identity (n : DNode) :
    AND [] n = true ∧ OR [] n = false := ⟨rfl, rfl⟩

/-! ## Reverse-postorder is the reverse of preorder -/

mutual
theorem dfr_eq_rev : (acc : Accessor) → (n : DNode) →
    depthFirstReversed acc n = (depthFirst acc n).reverse
  | .default, .mk i c t => by
      simp only [depthFirstReversed, depthFirst, List.reverse_cons]
      rw [dfrChildren_eq_rev .default c]
  | .includeTemplate, .mk i c t => by
      simp only [depthFirstReversed, depthFirst, List.reverse_cons]
      split <;> rw [dfrChildren_eq_rev .includeTemplate]

theorem dfrChildren_eq_rev : (acc : Accessor) → (c : DChildren) →
    dfrChildren acc c = (dfChildren acc c).reverse
  | _, .noList => by simp [dfrChildren, dfChildren]
  | acc, .list l => by
      simp only [dfrChildren, dfChildren]
      exact dfrList_eq_rev acc l

theorem dfrList_eq_rev : (acc : Accessor) → (l : DNodeList) →
    dfrList acc l = (dfList acc l).reverse
  | _, .nil => by simp [dfrList, dfList]
  | acc, .cons x xs => by
      simp only [dfrList, dfList, List.reverse_append]
      rw [dfrList_eq_rev acc xs, dfr_eq_rev acc x]
end

/-! ## Zipper: a node together with its chain of parents

`parse5` nodes carry `parentNode` back-references; `ancestors`,
`previousSiblings` and `iteratePrior` navigate them. A focused node in
a consistent tree is represented by the node plus a list of crumbs,
innermost parent first: `ls`/`rs` are the siblings before and after the
focus among that parent's `childNodes` (in document order), and
`info`/`content` are the parent's remaining fields. -/

structure Crumb where
  info : NInfo
  content : DChildren
  ls : List DNode
  rs : List DNode

/-- Rebuild the parent node from the focus and one crumb (this is the
node object that `node.parentNode` refers to). -/
def plugOne (n : DNode) (c : Crumb) : DNode :=
  .mk c.info (.list (DNodeList.ofList (c.ls ++ n :: c.rs))) c.content

/-- Rebuild the root of the tree from a focused node. -/
def plugAll (n : DNode) (cs : List Crumb) : DNode := cs.foldl plugOne n

/-- `iteratePrior` from `src/walking.ts`, on the zipper
representation: for each previous sibling (nearest first — this is
`previousSiblings`' `reversedView`), its whole subtree in
reverse-postorder (`depthFirstReversed`, default accessor); then the
parent; then recursively the parent's priors. On a consistent tree the
`previousSiblings` error paths cannot fire. -/
def priorsZ : DNode → List Crumb → List DNode
  | _, [] => []
  | n, c :: rest =>
      (c.ls.reverse.flatMap (depthFirstReversed .default)) ++
        plugOne n c :: priorsZ (plugOne n c) rest

theorem toList_ofList : (L : List DNode) →
    (DNodeList.ofList L).toList = L
  | [] => rfl
  | x :: xs => by simp [DNodeList.ofList, DNodeList.toList, toList_ofList xs]

/-- The subtrees of earlier siblings, traversed nearest-first in
reverse-postorder, reverse to the document-order concatenation of their
preorder traversals. -/
theorem rev_flatMap_dfr : (L : List DNode) →
    (L.reverse.flatMap (depthFirstReversed .default)).reverse =
      L.flatMap (depthFirst .default)
  | [] => rfl
  | x :: xs => by
      simp only [List.reverse_cons, List.flatMap_append, List.flatMap_cons,
        List.flatMap_nil, List.append_nil, List.reverse_append]
      rw [rev_flatMap_dfr xs, dfr_eq_rev .default x, List.reverse_reverse]

theorem depthFirst_plugOne (n : DNode) (c : Crumb) :
    depthFirst .default (plugOne n c) =
      plugOne n c ::
        (c.ls.flatMap (depthFirst .default) ++ depthFirst .default n ++
          c.rs.flatMap (depthFirst .default)) := by
  rw [depthFirst_cons]
  unfold plugOne getChildNodes DNode.childNodes
  simp [dfChildren, dfList_eq_flatMap, toList_ofList, List.flatMap_append]

/-- The preorder traversal of the whole tree decomposes as: the
reversed prior sequence of a focus, then the focus's own subtree, then
a remainder. -/
theorem df_plug_prefix : (cs : List Crumb) → (n : DNode) →
    ∃ rest, depthFirst .default (plugAll n cs) =
      (priorsZ n cs).reverse ++ depthFirst .default n ++ rest
  | [], n => ⟨[], by simp [plugAll, priorsZ]⟩
  | c :: cs, n => by
      obtain ⟨rest, ih⟩ := df_plug_prefix cs (plugOne n c)
      refine ⟨c.rs.flatMap (depthFirst .default) ++ rest, ?_⟩
      have hfold : plugAll n (c :: cs) = plugAll (plugOne n c) cs := rfl
      rw [hfold, ih, depthFirst_plugOne]
      simp only [priorsZ, List.reverse_append, List.reverse_cons,
        rev_flatMap_dfr]
      simp [List.append_assoc]

/-- C1: for every focused node N in a finite tree, the sequence
`[N] ++ iteratePrior(N)` (the prior-order iterator of walking.ts),
reversed, is exactly the prefix of the `depthFirst` preorder traversal
of the root up to and including N. -/
theorem prior_reverse_prefix (n : DNode) (cs : List Crumb) :
    (n :: priorsZ n cs).reverse =
      (depthFirst .default (plugAll n cs)).take ((priorsZ n cs).length + 1) := by
  obtain ⟨rest, h⟩ := df_plug_prefix cs n
  rw [h, depthFirst_cons]
  rw [List.reverse_cons]
  have hsplit :
      (priorsZ n cs).reverse ++
          (n :: dfChildren .default (getChildNodes .default n)) ++ rest =
        ((priorsZ n cs).reverse ++ [n]) ++
          (dfChildren .default (getChildNodes .default n) ++ rest) := by
    simp [List.append_assoc]
  rw [hsplit, List.take_left']
  simp

/-! ## `nodeWalkPrior` (walking.ts) and claim C4 -/

/-- The `find` helper of `src/walking.ts` (first element satisfying the
predicate, else none). -/
def findFirst (p : DNode → Bool) : List DNode → Option DNode
  | [] => none
  | x :: xs => if p x then some x else findFirst p xs

/-- `nodeWalkPrior` from `src/walking.ts`: the first match of the
predicate over `iteratePrior(node)` — note: the prior sequence does
*not* include the node itself (`iteratePriorIncludingNode` is used only
by `nodeWalkAllPrior`). -/
def nodeWalkPrior (p : DNode → Bool) (n : DNode) (cs : List Crumb) :
    Option DNode :=
  findFirst p (priorsZ n cs)

theorem findFirst_eq_some_iff (p : DNode → Bool) (r : DNode) :
    (l : List DNode) →
    (findFirst p l = some r ↔
      ∃ i, i < l.length ∧ l.getD i default = r ∧ p r = true ∧
        ∀ j, j < i → p (l.getD j default) = false)
  | [] => by simp [findFirst]
  | x :: xs => by
      by_cases hx : p x
      · simp only [findFirst]
        rw [if_pos hx]
        constructor
        · rintro h
          injection h with h
          exact ⟨0, by simp, by simpa using h, h ▸ hx,
            fun j hj => absurd hj (Nat.not_lt_zero j)⟩
        · rintro ⟨i, hi, hget, hpr, hmin⟩
          cases i with
          | zero => simp_all
          | succ i =>
              have := hmin 0 (by omega)
              simp only [List.getD_cons_zero] at this
              simp_all
      · simp only [findFirst]
        rw [if_neg hx]
        rw [findFirst_eq_some_iff p r xs]
        constructor
        · rintro ⟨i, hi, hget, hpr, hmin⟩
          refine ⟨i + 1, by simp only [List.length_cons]; omega,
            by simpa using hget, hpr, ?_⟩
          intro j hj
          cases j with
          | zero => simpa using hx
          | succ j => simpa using hmin j (by omega)
        · rintro ⟨i, hi, hget, hpr, hmin⟩
          cases i with
          | zero =>
              exfalso
              apply hx
              have hxr : x = r := by simpa using hget
              rw [hxr]
              exact hpr
          | succ i =>
              refine ⟨i, by simp only [List.length_cons] at hi; omega,
                by simpa using hget, hpr, ?_⟩
              intro j hj
              simpa using hmin (j + 1) (by omega)

theorem findFirst_eq_none_iff (p : DNode → Bool) :
    (l : List DNode) →
    (findFirst p l = none ↔ ∀ x ∈ l, p x = false)
  | [] => by simp [findFirst]
  | x :: xs => by
      simp only [findFirst]
      by_cases hx : p x
      · rw [if_pos hx]
        simp [List.forall_mem_cons, hx]
      · rw [if_neg hx, findFirst_eq_none_iff p xs]
        have hx' : p x = false := by simpa using hx
        simp [List.forall_mem_cons, hx']

/-- C4 (amended): `nodeWalkPrior` returns the first node satisfying the
predicate in the prior-order sequence of the focus — *exclusive* of the
focused node itself — or none when no node of that sequence satisfies
it. -/
theorem nodeWalkPrior_first_match (p : DNode → Bool) (n : DNode)
    (cs : List Crumb) (r : DNode) :
    (nodeWalkPrior p n cs = some r ↔
      ∃ i, i < (priorsZ n cs).length ∧ (priorsZ n cs).getD i default = r ∧
        p r = true ∧
        ∀ j, j < i → p ((priorsZ n cs).getD j default) = false) ∧
    (nodeWalkPrior p n cs = none ↔ ∀ x ∈ priorsZ n cs, p x = false) :=
  ⟨findFirst_eq_some_iff p r (priorsZ n cs),
   findFirst_eq_none_iff p (priorsZ n cs)⟩

/-- A one-node tree: an element with an empty child list and no
parent. -/
def rootOnly : DNode := .mk ⟨"a", some "a", "", "", []⟩ (.list .nil) .noList

/-- C4 counterexample: on a root node with no priors, a predicate that
is true on the node itself — in particular true everywhere — still gets
no result from `nodeWalkPrior`, so the sequence searched is *not*
inclusive of the node (the claim would require the node itself to be
returned). -/
theorem nodeWalkPrior_excludes_node :
    nodeWalkPrior (fun _ => true) rootOnly [] = none ∧
    (fun (_ : DNode) => true) rootOnly = true := ⟨rfl, rfl⟩

/-! ## Text content and the two `hasTextValue` variants (claim C7) -/

mutual
/-- `nodeWalkAll` from `dom5.ts`: push the node if it matches, then
recurse into `childNodes` (when present) in order; matches accumulate
in the accumulator argument. -/
def nodeWalkAll (p : DNode → Bool) : DNode → List DNode → List DNode
  | .mk i c t, ms =>
      nwaChildren p c (if p (.mk i c t) then ms ++ [.mk i c t] else ms)

def nwaChildren (p : DNode → Bool) : DChildren → List DNode → List DNode
  | .noList, m => m
  | .list l, m => nwaList p l m

def nwaList (p : DNode → Bool) : DNodeList → List DNode → List DNode
  | .nil, m => m
  | .cons x xs, m => nwaList p xs (nodeWalkAll p x m)
end

mutual
theorem nodeWalkAll_eq_filter (p : DNode → Bool) :
    (n : DNode) → (m : List DNode) →
    nodeWalkAll p n m = m ++ (depthFirst .default n).filter p
  | .mk i c t, m => by
      simp only [nodeWalkAll, depthFirst, List.filter_cons]
      rw [nwaChildren_eq_filter p c]
      by_cases hp : p (.mk i c t) = true
      · rw [if_pos hp, if_pos hp]
        simp
      · rw [if_neg hp, if_neg hp]

theorem nwaChildren_eq_filter (p : DNode → Bool) :
    (c : DChildren) → (m : List DNode) →
    nwaChildren p c m = m ++ (dfChildren .default c).filter p
  | .noList, m => by simp [nwaChildren, dfChildren]
  | .list l, m => by
      simp only [nwaChildren, dfChildren]
      exact nwaList_eq_filter p l m

theorem nwaList_eq_filter (p : DNode → Bool) :
    (l : DNodeList) → (m : List DNode) →
    nwaList p l m = m ++ (dfList .default l).filter p
  | .nil, m => by simp [nwaList, dfList]
  | .cons x xs, m => by
      simp only [nwaList, dfList, List.filter_append]
      rw [nwaList_eq_filter p xs, nodeWalkAll_eq_filter p x]
      simp [List.append_assoc]
end

/-- String concatenation of a list (the `.join('')` / `text +=`
accumulations). -/
def directConcat : List String → String
  | [] => ""
  | s :: ss => s ++ directConcat ss

/-- `getTextContent` from `dom5.ts`: a comment's `data`, a text node's
`value`, and otherwise the concatenated values of *all* text nodes in
the subtree (`nodeWalkAll(node, isTextNode)`; each collected node is a
text node, on which `getTextContent` returns its `value`). -/
def getTextContent (n : DNode) : String :=
  if isCommentNode n then n.nodeData
  else if isTextNode n then n.value
  else directConcat ((nodeWalkAll isTextNode n []).map DNode.value)

/-- `hasTextValue` from `dom5.ts` (line 205): compares the *recursive*
`getTextContent` of the node with the wanted value. -/
def hasTextValueTs (v : String) : DNode → Bool := fun n =>
  getTextContent n == v

/-- The `normalizeTextContent` helper of `dom5.js`: concatenation of
the values of an element's *direct* text-node children only. -/
def ntcLoop : DNodeList → String
  | .nil => ""
  | .cons c cs => (if isTextNode c then c.value else "") ++ ntcLoop cs

def normalizeTextContent (n : DNode) : String :=
  if isElement n then
    match n.childNodes with
    | .noList => ""
    | .list l => ntcLoop l
  else ""

/-- `hasTextValue` from `dom5.js` (line 120): direct text children for
an element, own `value` for a text node, own `data` for a comment,
`false` otherwise. -/
def hasTextValueJs (v : String) : DNode → Bool := fun n =>
  if isElement n then normalizeTextContent n == v
  else if isTextNode n then n.value == v
  else if isCommentNode n then n.nodeData == v
  else false

/-- Claim C7's stated property, written from the spec's words: on an
element, the concatenation of the values of the direct text-node
children equals `v`; on a text node, the own value; on a comment, the
own data. -/
def directTextValueSpec (v : String) (n : DNode) : Bool :=
  if isElement n then
    directConcat
        (((childListOf .default n).filter isTextNode).map DNode.value) == v
  else if isTextNode n then n.value == v
  else if isCommentNode n then n.nodeData == v
  else false

theorem ntcLoop_eq_filter : (l : DNodeList) →
    ntcLoop l = directConcat ((l.toList.filter isTextNode).map DNode.value)
  | .nil => rfl
  | .cons c cs => by
      simp only [ntcLoop, DNodeList.toList, List.filter_cons]
      by_cases hct : isTextNode c = true
      · rw [if_pos hct, if_pos hct]
        simp only [List.map_cons, directConcat]
        rw [ntcLoop_eq_filter cs]
      · rw [if_neg hct, if_neg hct]
        rw [ntcLoop_eq_filter cs]
        simp [String.empty_append]

/-- C7 (amended): `dom5.js`'s `hasTextValue` decides exactly the
claimed property — direct-text-children concatenation for elements,
own value for text nodes, own data for comments (`dom5.ts`'s variant
compares the full recursive text content instead; see the
counterexample). -/
theorem hasTextValueJs_spec (v : String) (n : DNode) :
    hasTextValueJs v n = directTextValueSpec v n := by
  unfold hasTextValueJs directTextValueSpec
  by_cases he : isElement n = true
  · rw [if_pos he, if_pos he]
    unfold normalizeTextContent childListOf
    rw [if_pos he]
    cases n with
    | mk i c t =>
      cases c with
      | noList => rfl
      | list l =>
          simp only [DNode.childNodes, getChildNodes]
          rw [ntcLoop_eq_filter l]
  · rw [if_neg he, if_neg he]

def exSpanX : DNode :=
  .mk ⟨"span", some "span", "", "", []⟩
    (.list (.cons (.mk ⟨"#text", none, "x", "", []⟩ .noList .noList) .nil))
    .noList

def exDivX : DNode :=
  .mk ⟨"div", some "div", "", "", []⟩ (.list (.cons exSpanX .nil)) .noList

/-- C7 counterexample: on `<div><span>x</span></div>`, `dom5.ts`'s
`hasTextValue "x"` is `true` (recursive text content), although the
concatenation of the div's *direct* text children is `""` — the claimed
iff fails for this exported `hasTextValue`. -/
theorem hasTextValueTs_not_direct :
    hasTextValueTs "x" exDivX = true ∧
    directTextValueSpec "x" exDivX = false := ⟨rfl, rfl⟩

/-! ## `normalize` (dom5.ts) — claims C5 and C10

`normalize` scans a container's `childNodes` and collapses every
maximal run of adjacent text-node children into a single fresh text
node carrying the concatenated text (`collapseTextRange`), dropping the
run entirely when the concatenation is empty, and recursing into
non-text children. The in-place backward loop of the source only ever
splices completed runs strictly to the right of the scan position, so
it computes the same children list as this run-by-run recursion;
`emitText` is the `if (text) { insert newTextNode }` step of
`collapseTextRange`. A container whose `childNodes` array is absent
makes the source fault (`node.childNodes.length` on `undefined`); that
is modelled by `none`. -/

/-- `newTextNode` from `dom5.ts` constructors (no `childNodes`
field). -/
def newTextNode (v : String) : DNode := .mk ⟨"#text", none, v, "", []⟩ .noList .noList

/-- The insertion step of `collapseTextRange`: a nonempty collapsed
text becomes one fresh text node, an empty one inserts nothing. -/
def emitText (acc : String) (rest : DNodeList) : DNodeList :=
  if acc == "" then rest else .cons (newTextNode acc) rest

mutual
def normalize : DNode → Option DNode
  | .mk i c t =>
      if isElement (.mk i c t) || isDocument (.mk i c t) ||
          isDocumentFragment (.mk i c t) then
        match c with
        | .noList => none
        | .list l =>
            match normChildren l with
            | none => none
            | some m => some (.mk i (.list m) t)
      else some (.mk i c t)

def normChildren : DNodeList → Option DNodeList
  | .nil => some .nil
  | .cons c cs =>
      if isTextNode c then textRun (getTextContent c) cs
      else
        match normalize c with
        | none => none
        | some c₂ =>
            match normChildren cs with
            | none => none
            | some rest => some (.cons c₂ rest)

/-- A maximal run of adjacent text children being accumulated
(`textRangeStart … i` in the source, with `acc` the concatenation via
`getTextContent` that `collapseTextRange` builds). -/
def textRun (acc : String) : DNodeList → Option DNodeList
  | .nil => some (emitText acc .nil)
  | .cons c cs =>
      if isTextNode c then textRun (acc ++ getTextContent c) cs
      else
        match normalize c with
        | none => none
        | some c₂ =>
            match normChildren cs with
            | none => none
            | some rest => some (emitText acc (.cons c₂ rest))
end

theorem isTextNode_newTextNode (v : String) :
    isTextNode (newTextNode v) = true := rfl

theorem getTextContent_newTextNode (v : String) :
    getTextContent (newTextNode v) = v := rfl

theorem normalize_info : ∀ {n u : DNode}, normalize n = some u →
    u.info = n.info := by
  intro n u h
  cases n with
  | mk i c t =>
    cases c with
    | noList =>
        simp only [normalize] at h
        split at h
        · exact absurd h (by simp)
        · injection h with h
          rw [← h]
    | list l =>
        simp only [normalize] at h
        split at h
        · split at h
          · exact absurd h (by simp)
          · injection h with h
            rw [← h]
            rfl
        · injection h with h
          rw [← h]

theorem normalize_textKind {c c₂ : DNode} (h : normalize c = some c₂) :
    isTextNode c₂ = isTextNode c := by
  unfold isTextNode
  rw [normalize_info h]

mutual
theorem normalize_idem : (n : DNode) → ∀ u, normalize n = some u →
    normalize u = some u
  | .mk i c t => by
      intro u hu
      by_cases hcont : (isElement (.mk i c t) || isDocument (.mk i c t) ||
          isDocumentFragment (.mk i c t)) = true
      · cases c with
        | noList =>
            simp only [normalize] at hu
            rw [if_pos hcont] at hu
            exact absurd hu (by simp)
        | list l =>
            simp only [normalize] at hu
            rw [if_pos hcont] at hu
            cases hnc : normChildren l with
            | none =>
                rw [hnc] at hu
                exact absurd hu (by simp)
            | some m =>
                rw [hnc] at hu
                simp only at hu
                injection hu with hu
                rw [← hu]
                have hcont₂ : (isElement (.mk i (.list m) t) ||
                    isDocument (.mk i (.list m) t) ||
                    isDocumentFragment (.mk i (.list m) t)) = true := hcont
                simp only [normalize]
                rw [if_pos hcont₂, normChildren_idem l m hnc]
      · cases c with
        | noList =>
            simp only [normalize] at hu
            rw [if_neg hcont] at hu
            injection hu with hu
            rw [← hu]
            simp only [normalize]
            rw [if_neg hcont]
        | list l =>
            simp only [normalize] at hu
            rw [if_neg hcont] at hu
            injection hu with hu
            rw [← hu]
            simp only [normalize]
            rw [if_neg hcont]
termination_by n => sizeOf n

theorem normChildren_idem : (l : DNodeList) → ∀ m, normChildren l = some m →
    normChildren m = some m
  | .nil => by
      intro m hm
      simp only [normChildren] at hm
      injection hm with hm
      rw [← hm]
      rfl
  | .cons c cs => by
      intro m hm
      simp only [normChildren] at hm
      by_cases hct : isTextNode c = true
      · rw [if_pos hct] at hm
        exact textRun_idem (getTextContent c) cs m hm
      · rw [if_neg hct] at hm
        cases hnc : normalize c with
        | none =>
            rw [hnc] at hm
            exact absurd hm (by simp)
        | some c₂ =>
            rw [hnc] at hm
            simp only at hm
            cases hrest : normChildren cs with
            | none =>
                rw [hrest] at hm
                exact absurd hm (by simp)
            | some rest =>
                rw [hrest] at hm
                simp only at hm
                injection hm with hm
                rw [← hm]
                have hct₂ : ¬(isTextNode c₂ = true) := by
                  rw [normalize_textKind hnc]
                  exact hct
                simp only [normChildren]
                rw [if_neg hct₂, normalize_idem c c₂ hnc,
                  normChildren_idem cs rest hrest]
termination_by l => sizeOf l

theorem textRun_idem : (acc : String) → (cs : DNodeList) → ∀ m,
    textRun acc cs = some m → normChildren m = some m
  | acc, .nil => by
      intro m hm
      simp only [textRun] at hm
      injection hm with hm
      rw [← hm]
      by_cases hacc : (acc == "") = true
      · simp only [emitText]
        rw [if_pos hacc]
        rfl
      · simp only [emitText]
        rw [if_neg hacc]
        simp only [normChildren]
        rw [if_pos (isTextNode_newTextNode acc), getTextContent_newTextNode]
        simp only [textRun, emitText]
        rw [if_neg hacc]
  | acc, .cons c cs => by
      intro m hm
      simp only [textRun] at hm
      by_cases hct : isTextNode c = true
      · rw [if_pos hct] at hm
        exact textRun_idem (acc ++ getTextContent c) cs m hm
      · rw [if_neg hct] at hm
        cases hnc : normalize c with
        | none =>
            rw [hnc] at hm
            exact absurd hm (by simp)
        | some c₂ =>
            rw [hnc] at hm
            simp only at hm
            cases hrest : normChildren cs with
            | none =>
                rw [hrest] at hm
                exact absurd hm (by simp)
            | some rest =>
                rw [hrest] at hm
                simp only at hm
                injection hm with hm
                rw [← hm]
                have hct₂ : ¬(isTextNode c₂ = true) := by
                  rw [normalize_textKind hnc]
                  exact hct
                have htail : normChildren (.cons c₂ rest) =
                    some (.cons c₂ rest) := by
                  simp only [normChildren]
                  rw [if_neg hct₂, normalize_idem c c₂ hnc,
                    normChildren_idem cs rest hrest]
                by_cases hacc : (acc == "") = true
                · simp only [emitText]
                  rw [if_pos hacc]
                  exact htail
                · simp only [emitText]
                  rw [if_neg hacc]
                  simp only [normChildren]
                  rw [if_pos (isTextNode_newTextNode acc),
                    getTextContent_newTextNode]
                  simp only [textRun]
                  rw [if_neg hct₂, normalize_idem c c₂ hnc,
                    normChildren_idem cs rest hrest]
                  simp only [emitText]
                  rw [if_neg hacc]
termination_by acc cs => sizeOf cs
end

/-- C5: `normalize` is idempotent — whenever normalizing a tree
succeeds (its containers have `childNodes` arrays), normalizing the
result again changes nothing. -/
theorem normalize_idempotent (T U : DNode) (h : normalize T = some U) :
    normalize U = some U := normalize_idem T U h

def exSpan5 : DNode := .mk ⟨"span", some "span", "", "", []⟩ (.list .nil) .noList

def exT5 : DNode :=
  .mk ⟨"div", some "div", "", "", []⟩
    (.list (.ofList [newTextNode "a", newTextNode "b", exSpan5,
      newTextNode "c"]))
    .noList

def exU5 : DNode :=
  .mk ⟨"div", some "div", "", "", []⟩
    (.list (.ofList [newTextNode "ab", exSpan5, newTextNode "c"]))
    .noList

/-- C5 witness: `<div>{"a"}{"b"}<span/>{"c"}</div>` normalizes to
`<div>{"ab"}<span/>{"c"}</div>`, and normalizing again is the
identity. -/
theorem normalize_idempotent_witness :
    normalize exT5 = some exU5 ∧ normalize exU5 = some exU5 :=
  ⟨rfl, normalize_idempotent exT5 exU5 rfl⟩

/-! ## Claim C10: empty text runs vanish under `normalize` -/

/-- `true` when the list is empty or its last entry is not a text node
(so a maximal text run in a longer list cannot leak into it from the
left). -/
def endsNonText : DNodeList → Bool
  | .nil => true
  | .cons c .nil => !(isTextNode c)
  | .cons _ (.cons d ds) => endsNonText (.cons d ds)

/-- `true` when the list is empty or starts with a non-text node. -/
def headNonText : DNodeList → Bool
  | .nil => true
  | .cons c _ => !(isTextNode c)

/-- Every entry is a text node whose text content is empty. -/
def allEmptyText : DNodeList → Bool
  | .nil => true
  | .cons c cs => isTextNode c && (getTextContent c == "") && allEmptyText cs

theorem append_cons (x : DNode) (l r : DNodeList) :
    (DNodeList.cons x l).append r = .cons x (l.append r) := rfl

theorem emitText_append (acc : String) (l r : DNodeList) :
    (emitText acc l).append r = emitText acc (l.append r) := by
  by_cases hacc : (acc == "") = true
  · simp only [emitText]
    rw [if_pos hacc, if_pos hacc]
  · simp only [emitText]
    rw [if_neg hacc, if_neg hacc]
    rfl

theorem ofList_append : (a b : List DNode) →
    DNodeList.ofList (a ++ b) = (DNodeList.ofList a).append (DNodeList.ofList b)
  | [], _ => rfl
  | x :: xs, b => congrArg (DNodeList.cons x) (ofList_append xs b)

mutual
theorem normChildren_append (rest : DNodeList) : (pre : DNodeList) →
    endsNonText pre = true →
    normChildren (pre.append rest) =
      (match normChildren pre with
       | none => none
       | some p =>
          match normChildren rest with
          | none => none
          | some r => some (p.append r))
  | .nil, _ => by
      simp only [DNodeList.append, normChildren]
      cases hr : normChildren rest <;> rfl
  | .cons c cs, hend => by
      by_cases hct : isTextNode c = true
      · cases cs with
        | nil =>
            rw [endsNonText] at hend
            rw [hct] at hend
            exact absurd hend (by simp)
        | cons d ds =>
            simp only [DNodeList.append, normChildren]
            rw [if_pos hct, if_pos hct]
            exact textRun_append rest (.cons d ds)
              (fun h => DNodeList.noConfusion h) hend (getTextContent c)
      · have hend₂ : endsNonText cs = true := by
          cases cs with
          | nil => rfl
          | cons d ds => exact hend
        simp only [DNodeList.append, normChildren]
        rw [if_neg hct, if_neg hct]
        rw [normChildren_append rest cs hend₂]
        cases hnc : normalize c with
        | none => simp only [hnc]
        | some c₂ =>
            simp only [hnc]
            cases hcs : normChildren cs with
            | none => simp only [hcs]
            | some p =>
                simp only [hcs]
                cases hrr : normChildren rest with
                | none => simp only [hrr]
                | some r =>
                    simp only [hrr, DNodeList.append]
termination_by pre => sizeOf pre

theorem textRun_append (rest : DNodeList) : (cs : DNodeList) → cs ≠ .nil →
    endsNonText cs = true → ∀ acc,
    textRun acc (cs.append rest) =
      (match textRun acc cs with
       | none => none
       | some p =>
          match normChildren rest with
          | none => none
          | some r => some (p.append r))
  | .nil, hne, _ => absurd rfl hne
  | .cons c .nil, _, hend => by
      intro acc
      have hct : isTextNode c = false := by
        rw [endsNonText] at hend
        simpa using hend
      simp only [DNodeList.append, textRun]
      rw [if_neg (by simp [hct]), if_neg (by simp [hct])]
      cases hnc : normalize c with
      | none => simp only [hnc]
      | some c₂ =>
          simp only [hnc, normChildren]
          cases hrr : normChildren rest with
          | none => simp only [hrr]
          | some r =>
              simp only [hrr, emitText_append, DNodeList.append]
  | .cons c (.cons d ds), _, hend => by
      intro acc
      by_cases hct : isTextNode c = true
      · simp only [DNodeList.append, textRun]
        rw [if_pos hct, if_pos hct]
        exact textRun_append rest (.cons d ds)
          (fun h => DNodeList.noConfusion h) hend (acc ++ getTextContent c)
      · rw [append_cons]
        simp only [textRun]
        rw [if_neg hct, if_neg hct]
        rw [normChildren_append rest (.cons d ds) hend]
        cases hnc : normalize c with
        | none => simp only [hnc]
        | some c₂ =>
            simp only [hnc]
            cases hcs : normChildren (.cons d ds) with
            | none => simp only [hcs]
            | some p =>
                simp only [hcs]
                cases hrr : normChildren rest with
                | none => simp only [hrr]
                | some r =>
                    simp only [hrr, emitText_append, DNodeList.append]
termination_by cs => sizeOf cs
end

theorem textRun_empty_run (post : DNodeList) :
    (run : DNodeList) → allEmptyText run = true →
    textRun "" (run.append post) = textRun "" post
  | .nil, _ => rfl
  | .cons c cs, hall => by
      simp only [allEmptyText, Bool.and_eq_true] at hall
      obtain ⟨⟨h1, h2⟩, h3⟩ := hall
      simp only [DNodeList.append, textRun]
      rw [if_pos h1]
      have h2₂ : getTextContent c = "" := by simpa using h2
      rw [h2₂]
      have hid : ("" ++ "" : String) = "" := rfl
      rw [hid]
      exact textRun_empty_run post cs h3

theorem textRun_empty_head (post : DNodeList)
    (hpost : headNonText post = true) :
    textRun "" post = normChildren post := by
  cases post with
  | nil => rfl
  | cons d ds =>
      have hd : isTextNode d = false := by
        rw [headNonText] at hpost
        simpa using hpost
      simp only [textRun, normChildren]
      rw [if_neg (by simp [hd]), if_neg (by simp [hd])]
      cases hnd : normalize d with
      | none => simp only [hnd]
      | some d₂ =>
          simp only [hnd]
          cases hds : normChildren ds with
          | none => simp only [hds]
          | some r =>
              simp only [hds, emitText]
              rw [if_pos (by rfl)]

/-- A maximal all-empty text run at the head of the child list
contributes nothing: `normalize`'s collapse drops it without inserting
a replacement node. -/
theorem normChildren_empty_run (post : DNodeList)
    (hpost : headNonText post = true) :
    (run : DNodeList) → run ≠ .nil → allEmptyText run = true →
    normChildren (run.append post) = normChildren post
  | .nil, hne, _ => absurd rfl hne
  | .cons c cs, _, hall => by
      simp only [allEmptyText, Bool.and_eq_true] at hall
      obtain ⟨⟨h1, h2⟩, h3⟩ := hall
      simp only [DNodeList.append, normChildren]
      rw [if_pos h1]
      have h2₂ : getTextContent c = "" := by simpa using h2
      rw [h2₂]
      rw [textRun_empty_run post cs h3]
      exact textRun_empty_head post hpost

theorem directConcat_empty : (ss : List String) → directConcat ss = "" →
    ∀ s ∈ ss, s = ""
  | [], _ => by intro s hs; cases hs
  | s :: ss, h => by
      intro x hx
      have hdata : s.data ++ (directConcat ss).data = [] := by
        have hc := congrArg String.data h
        rw [directConcat, String.data_append] at hc
        exact hc
      have hs : s.data = [] := by
        have := congrArg List.length hdata
        simp only [List.length_append, List.length_nil] at this
        have hlen : s.data.length = 0 := by omega
        exact List.length_eq_zero.mp hlen
      have hrest : (directConcat ss).data = [] := by
        have := congrArg List.length hdata
        simp only [List.length_append, List.length_nil] at this
        have hlen : (directConcat ss).data.length = 0 := by omega
        exact List.length_eq_zero.mp hlen
      cases hx with
      | head => exact String.ext hs
      | tail _ hmem =>
          exact directConcat_empty ss (String.ext hrest) x hmem

theorem allEmptyText_ofList : (run : List DNode) →
    (∀ c ∈ run, isTextNode c = true) →
    (∀ c ∈ run, getTextContent c = "") →
    allEmptyText (DNodeList.ofList run) = true
  | [], _, _ => rfl
  | c :: cs, htext, hempty => by
      simp only [DNodeList.ofList, allEmptyText, Bool.and_eq_true]
      refine ⟨⟨htext c (by simp), by simp [hempty c (by simp)]⟩, ?_⟩
      exact allEmptyText_ofList cs (fun x hx => htext x (by simp [hx]))
        (fun x hx => hempty x (by simp [hx]))

/-- C10: in an element / document / document-fragment whose children
are `pre ++ run ++ post`, where `run` is a maximal nonempty run of
adjacent text children whose concatenated text content is empty,
`normalize` removes the run entirely and inserts no replacement text
node: the normalized children are exactly the normalized `pre` followed
by the normalized `post`. -/
theorem normalize_drops_empty_run (i : NInfo) (t : DChildren)
    (pre run post : List DNode) (u : DNode)
    (hcont : (isElement (.mk i (.list (DNodeList.ofList (pre ++ run ++ post))) t) ||
        isDocument (.mk i (.list (DNodeList.ofList (pre ++ run ++ post))) t) ||
        isDocumentFragment (.mk i (.list (DNodeList.ofList (pre ++ run ++ post))) t)) = true)
    (hrun_ne : run ≠ [])
    (hrun_text : ∀ c ∈ run, isTextNode c = true)
    (hrun_empty : directConcat (run.map getTextContent) = "")
    (hpre : endsNonText (DNodeList.ofList pre) = true)
    (hpost : headNonText (DNodeList.ofList post) = true)
    (hnorm : normalize (.mk i (.list (DNodeList.ofList (pre ++ run ++ post))) t) = some u) :
    ∃ p q, normChildren (DNodeList.ofList pre) = some p ∧
      normChildren (DNodeList.ofList post) = some q ∧
      u = .mk i (.list (p.append q)) t := by
  simp only [normalize] at hnorm
  rw [if_pos hcont] at hnorm
  have hsplit : DNodeList.ofList (pre ++ run ++ post) =
      (DNodeList.ofList pre).append
        ((DNodeList.ofList run).append (DNodeList.ofList post)) := by
    rw [List.append_assoc, ofList_append, ofList_append]
  rw [hsplit] at hnorm
  have hrun_ne₂ : DNodeList.ofList run ≠ .nil := by
    cases run with
    | nil => exact absurd rfl hrun_ne
    | cons a as => exact fun h => DNodeList.noConfusion h
  have hempties : ∀ c ∈ run, getTextContent c = "" := by
    intro c hc
    exact directConcat_empty (run.map getTextContent) hrun_empty
      (getTextContent c) (List.mem_map_of_mem getTextContent hc)
  have hall : allEmptyText (DNodeList.ofList run) = true :=
    allEmptyText_ofList run hrun_text hempties
  rw [normChildren_append ((DNodeList.ofList run).append (DNodeList.ofList post))
    (DNodeList.ofList pre) hpre] at hnorm
  rw [normChildren_empty_run (DNodeList.ofList post) hpost
    (DNodeList.ofList run) hrun_ne₂ hall] at hnorm
  cases hp : normChildren (DNodeList.ofList pre) with
  | none =>
      rw [hp] at hnorm
      exact absurd hnorm (by simp)
  | some p =>
      rw [hp] at hnorm
      simp only at hnorm
      cases hq : normChildren (DNodeList.ofList post) with
      | none =>
          rw [hq] at hnorm
          exact absurd hnorm (by simp)
      | some q =>
          rw [hq] at hnorm
          simp only at hnorm
          injection hnorm with hnorm
          exact ⟨p, q, rfl, rfl, hnorm.symm⟩

/-- C10 witness: a div whose children are one empty text node followed
by a span normalizes to just the span — the empty run is dropped, not
replaced. -/
theorem normalize_drops_empty_run_witness :
    ∃ p q, normChildren (DNodeList.ofList []) = some p ∧
      normChildren (DNodeList.ofList [exSpan5]) = some q ∧
      (DNode.mk ⟨"div", some "div", "", "", []⟩
          (.list (.cons exSpan5 .nil)) .noList) =
        .mk ⟨"div", some "div", "", "", []⟩ (.list (p.append q)) .noList :=
  normalize_drops_empty_run ⟨"div", some "div", "", "", []⟩ .noList
    [] [newTextNode ""] [exSpan5]
    (.mk ⟨"div", some "div", "", "", []⟩ (.list (.cons exSpan5 .nil)) .noList)
    (by rfl) (by simp)
    (by intro c hc; simp only [List.mem_singleton] at hc; rw [hc]; rfl)
    (by rfl) (by rfl) (by rfl) (by rfl)

/-! ## Heap model for the mutation engine (`dom5.ts`)

The mutation functions update `childNodes` arrays and `parentNode`
back-references of shared node objects in place. Nodes are modelled as
records in a heap addressed by index; object references become
indices, `null`/`undefined` references become `none`. A returned
`none` models a thrown JavaScript error (`TypeError` on a missing
`childNodes` array, reading a property of `null`). JavaScript array
semantics are kept: `indexOf` yields `-1` on a missing element and
`splice` clamps a negative start index from the end of the array. -/

structure NData where
  nodeName : String
  childNodes : Option (List Nat)
  parentNode : Option Nat
deriving DecidableEq, Repr

abbrev Heap := List NData

def getN (h : Heap) (i : Nat) : NData := h.getD i ⟨"", none, none⟩

def setN (h : Heap) (i : Nat) (d : NData) : Heap := h.set i d

def setParent (h : Heap) (i : Nat) (p : Option Nat) : Heap :=
  setN h i { getN h i with parentNode := p }

def setChildren (h : Heap) (i : Nat) (c : Option (List Nat)) : Heap :=
  setN h i { getN h i with childNodes := c }

/-- `Array.prototype.indexOf`: first index of `x`, `-1` when absent. -/
def jsIndexOf : List Nat → Nat → Int
  | [], _ => -1
  | a :: as, x =>
      if a = x then 0
      else
        let r := jsIndexOf as x
        if r = -1 then -1 else r + 1

/-- `Array.prototype.splice`: a negative start counts from the end
(clamped at 0), a start beyond the length is clamped to the length;
`delCount` entries are removed there and `items` inserted. -/
def jsSplice (l : List Nat) (start : Int) (delCount : Nat)
    (items : List Nat) : List Nat :=
  let s : Nat :=
    if start < 0 then ((l.length : Int) + start).toNat
    else min start.toNat l.length
  l.take s ++ items ++ l.drop (s + delCount)

/-- `arr[i]` for a possibly negative index: `undefined` (`none`) when
out of range. -/
def jsGetElem (l : List Nat) (i : Int) : Option Nat :=
  if 0 ≤ i then l[i.toNat]? else none

def isDocumentFragmentN (d : NData) : Bool :=
  d.nodeName == "#document-fragment"

/-- `remove` from `dom5.ts`: splice the node out of its parent's
`childNodes` at `indexOf` (note: no error when the node is absent —
`splice(-1, 1)` then removes the parent's *last* child), then null the
parent back-reference. Faults when the parent's `childNodes` is
absent. -/
def remove (h : Heap) (node : Nat) : Option Heap :=
  match (getN h node).parentNode with
  | some p =>
      match (getN h p).childNodes with
      | none => none
      | some sibs =>
          let idx := jsIndexOf sibs node
          some (setParent (setChildren h p (some (jsSplice sibs idx 1 []))) node none)
  | none => some (setParent h node none)

/-- The `newNodes.forEach(n => n.parentNode = parent)` loop. -/
def setParents (h : Heap) (cs : List Nat) (p : Nat) : Heap :=
  cs.foldl (fun hh x => setParent hh x (some p)) h

/-- `insertNode` from `dom5.ts`: splice `newNode` (or, for a document
fragment, its children — clearing the fragment's own list) into
`parent.childNodes` at `index`; optionally replace the occupant of
`index`, whose parent pointer is nulled afterwards. -/
def insertNode (h : Heap) (parent : Nat) (index : Int) (newNode : Nat)
    (repl : Bool) : Option Heap :=
  -- var removedNode = replace ? parent.childNodes[index] : null;
  -- (evaluating the access faults when childNodes is absent; the value
  -- is recomputed after the detach step below, so only the fault
  -- matters here)
  match (if repl then
            match (getN h parent).childNodes with
            | none => none
            | some l => some (jsGetElem l index)
          else some none : Option (Option Nat)) with
  | none => none
  | some _ =>
      match (if isDocumentFragmentN (getN h newNode) then
                match (getN h newNode).childNodes with
                | none => none
                | some cs => some (cs, setChildren h newNode (some []))
              else
                match remove h newNode with
                | none => none
                | some h₁ => some ([newNode], h₁) :
              Option (List Nat × Heap)) with
      | none => none
      | some (newNodes, h₁) =>
          -- if (replace) { removedNode = parent.childNodes[index]; }
          match (getN h₁ parent).childNodes with
          | none => none
          | some l₁ =>
              let removed : Option Nat :=
                if repl then jsGetElem l₁ index else none
              let h₂ := setChildren h₁ parent
                (some (jsSplice l₁ index (if repl then 1 else 0) newNodes))
              let h₃ := setParents h₂ newNodes parent
              some (match removed with
                    | some r => setParent h₃ r none
                    | none => h₃)

/-- `replace` from `dom5.ts`: faults when `oldNode` has no parent or
the parent has no `childNodes`. -/
def replace (h : Heap) (oldNode newNode : Nat) : Option Heap :=
  match (getN h oldNode).parentNode with
  | none => none
  | some p =>
      match (getN h p).childNodes with
      | none => none
      | some l => insertNode h p (jsIndexOf l oldNode) newNode true

/-- `insertBefore` from `dom5.ts`. -/
def insertBefore (h : Heap) (parent oldNode newNode : Nat) : Option Heap :=
  match (getN h parent).childNodes with
  | none => none
  | some l => insertNode h parent (jsIndexOf l oldNode) newNode false

/-- `append` from `dom5.ts`. -/
def append (h : Heap) (parent newNode : Nat) : Option Heap :=
  match (getN h parent).childNodes with
  | none => none
  | some l => insertNode h parent (l.length : Int) newNode false

/-- `previousSiblings` from `src/iteration.ts`: earlier siblings,
nearest first; throws on an inconsistent tree (parent without a
`childNodes` array, or child missing from it). -/
def previousSiblings (h : Heap) (node : Nat) : Except String (List Nat) :=
  match (getN h node).parentNode with
  | none => .ok []
  | some p =>
      match (getN h p).childNodes with
      | none => .error "Inconsistent parse5 tree: parent does not have children"
      | some sibs =>
          let idx := jsIndexOf sibs node
          if idx = -1 then
            .error "Inconsistent parse5 tree: parent does not know about child"
          else
            .ok ((sibs.take idx.toNat).reverse)

/-- The child list of a node, an absent array read as `[]` (used in
statements only). -/
def childList (h : Heap) (p : Nat) : List Nat := (getN h p).childNodes.getD []

/-- The decidable part of well-formedness at one node: a set parent
pointer points into the heap, at a node that has a `childNodes` array
containing this node. -/
def parentOkB (h : Heap) (c : Nat) : Bool :=
  match (getN h c).parentNode with
  | none => true
  | some p =>
      decide (p < h.length) && (getN h p).childNodes.isSome &&
        decide (c ∈ childList h p)

/-- Single-owner well-formedness of a heap: every child entry points
into the heap and back to its container, no child list has duplicates
(with containment implying the parent pointer, a node can then sit in
at most one list), and every set parent pointer is matched by
containment. -/
def WF (h : Heap) : Prop :=
  (∀ p ∈ List.range h.length, ∀ c ∈ childList h p,
      c < h.length ∧ (getN h c).parentNode = some p) ∧
  (∀ p ∈ List.range h.length, (childList h p).Nodup) ∧
  (∀ c ∈ List.range h.length, parentOkB h c = true)

instance decWF : (h : Heap) → Decidable (WF h) := fun h => by
  unfold WF
  infer_instance

/-! ### Heap access lemmas -/

theorem getD_set_self : ∀ (l : List NData) (i : Nat) (d dflt : NData),
    i < l.length → (l.set i d).getD i dflt = d
  | [], i, d, dflt, hlt => absurd hlt (by simp)
  | a :: as, 0, d, dflt, _ => rfl
  | a :: as, i + 1, d, dflt, hlt =>
      getD_set_self as i d dflt (by simpa using hlt)

theorem getD_set_ne : ∀ (l : List NData) (i j : Nat) (d dflt : NData),
    i ≠ j → (l.set i d).getD j dflt = l.getD j dflt
  | [], _, _, _, _, _ => rfl
  | a :: as, 0, 0, d, dflt, hne => absurd rfl hne
  | a :: as, 0, j + 1, d, dflt, _ => rfl
  | a :: as, i + 1, 0, d, dflt, _ => rfl
  | a :: as, i + 1, j + 1, d, dflt, hne =>
      getD_set_ne as i j d dflt (fun e => hne (by rw [e]))

theorem getN_out {h : Heap} {i : Nat} (hi : h.length ≤ i) :
    getN h i = ⟨"", none, none⟩ := List.getD_eq_default h _ hi

theorem lt_of_childNodes_some {h : Heap} {i : Nat} {l : List Nat}
    (hc : (getN h i).childNodes = some l) : i < h.length := by
  by_contra hge
  rw [getN_out (by omega)] at hc
  exact Option.noConfusion hc

theorem lt_of_parentNode_some {h : Heap} {i p : Nat}
    (hp : (getN h i).parentNode = some p) : i < h.length := by
  by_contra hge
  rw [getN_out (by omega)] at hp
  exact Option.noConfusion hp

theorem getN_setN_self {h : Heap} {i : Nat} (d : NData) (hi : i < h.length) :
    getN (setN h i d) i = d := getD_set_self h i d _ hi

theorem getN_setN_ne {h : Heap} {i j : Nat} (d : NData) (hij : i ≠ j) :
    getN (setN h i d) j = getN h j := getD_set_ne h i j d _ hij

theorem length_setN (h : Heap) (i : Nat) (d : NData) :
    (setN h i d).length = h.length := by
  simp [setN]

theorem length_setParent (h : Heap) (i : Nat) (p : Option Nat) :
    (setParent h i p).length = h.length := length_setN h i _

theorem length_setChildren (h : Heap) (i : Nat) (c : Option (List Nat)) :
    (setChildren h i c).length = h.length := length_setN h i _

theorem childNodes_setParent (h : Heap) (i : Nat) (p : Option Nat) (j : Nat) :
    (getN (setParent h i p) j).childNodes = (getN h j).childNodes := by
  by_cases hij : i = j
  · subst hij
    by_cases hi : i < h.length
    · rw [setParent, getN_setN_self _ hi]
    · rw [setParent, setN, List.set_eq_of_length_le (by omega)]
  · rw [setParent, getN_setN_ne _ hij]

theorem nodeName_setParent (h : Heap) (i : Nat) (p : Option Nat) (j : Nat) :
    (getN (setParent h i p) j).nodeName = (getN h j).nodeName := by
  by_cases hij : i = j
  · subst hij
    by_cases hi : i < h.length
    · rw [setParent, getN_setN_self _ hi]
    · rw [setParent, setN, List.set_eq_of_length_le (by omega)]
  · rw [setParent, getN_setN_ne _ hij]

theorem parentNode_setChildren (h : Heap) (i : Nat) (c : Option (List Nat))
    (j : Nat) :
    (getN (setChildren h i c) j).parentNode = (getN h j).parentNode := by
  by_cases hij : i = j
  · subst hij
    by_cases hi : i < h.length
    · rw [setChildren, getN_setN_self _ hi]
    · rw [setChildren, setN, List.set_eq_of_length_le (by omega)]
  · rw [setChildren, getN_setN_ne _ hij]

theorem parentNode_setParent_self {h : Heap} {i : Nat} (p : Option Nat)
    (hi : i < h.length) : (getN (setParent h i p) i).parentNode = p := by
  rw [setParent, getN_setN_self _ hi]

theorem parentNode_setParent_ne {h : Heap} {i j : Nat} (p : Option Nat)
    (hij : i ≠ j) :
    (getN (setParent h i p) j).parentNode = (getN h j).parentNode := by
  rw [setParent, getN_setN_ne _ hij]

theorem childNodes_setChildren_self {h : Heap} {i : Nat}
    (c : Option (List Nat)) (hi : i < h.length) :
    (getN (setChildren h i c) i).childNodes = c := by
  rw [setChildren, getN_setN_self _ hi]

theorem childNodes_setChildren_ne {h : Heap} {i j : Nat}
    (c : Option (List Nat)) (hij : i ≠ j) :
    (getN (setChildren h i c) j).childNodes = (getN h j).childNodes := by
  rw [setChildren, getN_setN_ne _ hij]

theorem length_setParents (p : Nat) :
    ∀ (cs : List Nat) (h : Heap), (setParents h cs p).length = h.length
  | [], _ => rfl
  | x :: xs, h => by
      rw [setParents, List.foldl_cons]
      rw [show (List.foldl (fun hh y => setParent hh y (some p)) (setParent h x (some p)) xs) = setParents (setParent h x (some p)) xs p from rfl]
      rw [length_setParents p xs, length_setParent]

theorem setParents_cons (h : Heap) (x : Nat) (xs : List Nat) (p : Nat) :
    setParents h (x :: xs) p = setParents (setParent h x (some p)) xs p := rfl

theorem childNodes_setParents (p j : Nat) :
    ∀ (cs : List Nat) (h : Heap),
    (getN (setParents h cs p) j).childNodes = (getN h j).childNodes
  | [], _ => rfl
  | x :: xs, h => by
      rw [setParents_cons, childNodes_setParents p j xs, childNodes_setParent]

theorem nodeName_setParents (p j : Nat) :
    ∀ (cs : List Nat) (h : Heap),
    (getN (setParents h cs p) j).nodeName = (getN h j).nodeName
  | [], _ => rfl
  | x :: xs, h => by
      rw [setParents_cons, nodeName_setParents p j xs, nodeName_setParent]

theorem parentNode_setParents_not_mem (p : Nat) {c : Nat} :
    ∀ (cs : List Nat) (h : Heap), c ∉ cs →
    (getN (setParents h cs p) c).parentNode = (getN h c).parentNode
  | [], _, _ => rfl
  | x :: xs, h, hmem => by
      rw [setParents_cons,
        parentNode_setParents_not_mem p xs _ (fun hx => hmem (by simp [hx])),
        parentNode_setParent_ne _ (fun e => hmem (by simp [e]))]

theorem parentNode_setParents_mem (p : Nat) {c : Nat} :
    ∀ (cs : List Nat) (h : Heap), c ∈ cs → c < h.length →
    (getN (setParents h cs p) c).parentNode = some p
  | [], _, hmem, _ => absurd hmem (by simp)
  | x :: xs, h, hmem, hlt => by
      by_cases hx : c ∈ xs
      · rw [setParents_cons]
        exact parentNode_setParents_mem p xs _ hx
          (by rw [length_setParent]; exact hlt)
      · have hcx : c = x := by
          rcases List.mem_cons.mp hmem with hh | hh
          · exact hh
          · exact absurd hh hx
        subst hcx
        rw [setParents_cons, parentNode_setParents_not_mem p xs _ hx,
          parentNode_setParent_self _ hlt]

theorem jsSplice_insert_at {l : List Nat} {i : Nat} (items : List Nat)
    (hi : i ≤ l.length) :
    jsSplice l (i : Int) 0 items = l.take i ++ items ++ l.drop i := by
  unfold jsSplice
  rw [if_neg (by omega)]
  simp [Int.toNat_natCast, Nat.min_eq_left hi]

/-! ## Claim C2: fragment insertion -/

/-- Reduction of `insertNode` on a document fragment with a present
child list (the `insertBefore`/`append` path, `replace` unset). -/
theorem insertNode_fragment_eq (h : Heap) (P F : Nat) (i : Int)
    (cs l₁ : List Nat)
    (hfragB : isDocumentFragmentN (getN h F) = true)
    (hFc : (getN h F).childNodes = some cs)
    (hPc1 : (getN (setChildren h F (some [])) P).childNodes = some l₁) :
    insertNode h P i F false =
      some (setParents
        (setChildren (setChildren h F (some [])) P
          (some (jsSplice l₁ i 0 cs))) cs P) := by
  unfold insertNode
  simp [hfragB, hFc, hPc1]

/-- C2: splicing a `DocumentFragment` `F` with children `cs` into a
distinct parent `P` at index `i ≤ |children of P|` (the insertion
routine as reached by `insertBefore`/`append`) succeeds, splices
exactly `cs` (not `F`) into `P`'s children at `i` — growing them by
`|cs|` — sets each spliced child's parent pointer to `P`, and leaves
`F` with an empty child list. -/
theorem insert_fragment_spec (h : Heap) (P F : Nat) (i : Nat)
    (l cs : List Nat)
    (hfrag : (getN h F).nodeName = "#document-fragment")
    (hFc : (getN h F).childNodes = some cs)
    (hPc : (getN h P).childNodes = some l)
    (hPF : P ≠ F)
    (hi : i ≤ l.length)
    (hcs : ∀ c ∈ cs, c < h.length) :
    ∃ h₂, insertNode h P (i : Int) F false = some h₂ ∧
      (getN h₂ P).childNodes = some (l.take i ++ cs ++ l.drop i) ∧
      (l.take i ++ cs ++ l.drop i).length = l.length + cs.length ∧
      (getN h₂ F).childNodes = some [] ∧
      (∀ c ∈ cs, (getN h₂ c).parentNode = some P) := by
  have hFlt : F < h.length := lt_of_childNodes_some hFc
  have hPlt : P < h.length := lt_of_childNodes_some hPc
  have hfragB : isDocumentFragmentN (getN h F) = true := by
    simp [isDocumentFragmentN, hfrag]
  have hPc1 : (getN (setChildren h F (some [])) P).childNodes = some l := by
    rw [childNodes_setChildren_ne _ (Ne.symm hPF)]
    exact hPc
  refine ⟨_, insertNode_fragment_eq h P F (i : Int) cs l hfragB hFc hPc1, ?_, ?_, ?_, ?_⟩
  · rw [childNodes_setParents, childNodes_setChildren_self _
      (by rw [length_setChildren]; exact hPlt), jsSplice_insert_at cs hi]
  · have h1 : (l.take i).length = i := by
      rw [List.length_take]
      omega
    simp [List.length_append, h1, List.length_drop]
    omega
  · rw [childNodes_setParents, childNodes_setChildren_ne _ hPF,
      childNodes_setChildren_self _ hFlt]
  · intro c hc
    apply parentNode_setParents_mem P _ _ hc
    rw [length_setChildren, length_setChildren]
    exact hcs c hc

def exH2 : Heap :=
  [⟨"div", some [1], none⟩,
   ⟨"span", some [], some 0⟩,
   ⟨"#document-fragment", some [3, 4], none⟩,
   ⟨"#text", none, some 2⟩,
   ⟨"#text", none, some 2⟩]

/-- C2 witness: inserting a fragment with two text children into a
one-child div at index 0 splices the two children in front, empties
the fragment, and reparents both children. -/
theorem insert_fragment_spec_witness :
    ∃ h₂, insertNode exH2 0 ((0 : Nat) : Int) 2 false = some h₂ ∧
      (getN h₂ 0).childNodes = some (List.take 0 [1] ++ [3, 4] ++ List.drop 0 [1]) ∧
      (List.take 0 [1] ++ [3, 4] ++ List.drop 0 [1]).length = [1].length + [3, 4].length ∧
      (getN h₂ 2).childNodes = some [] ∧
      (∀ c ∈ [3, 4], (getN h₂ c).parentNode = some 0) :=
  insert_fragment_spec exH2 0 2 0 [1] [3, 4] rfl rfl rfl
    (by decide) (by decide) (by decide)

/-! ## Claim C6: inconsistent-tree handling -/

/-- C6 (amended): `previousSiblings` raises the tree-inconsistency
error when the node's parent pointer is set but the node is missing
from that parent's child list (the mutation functions `remove`,
`replace` and `insertBefore` do *not* raise in this situation — see the
counterexample — they proceed with JavaScript negative-index `splice`
semantics). -/
theorem previousSiblings_inconsistent_error (h : Heap) (node p : Nat)
    (sibs : List Nat)
    (hp : (getN h node).parentNode = some p)
    (hc : (getN h p).childNodes = some sibs)
    (hmem : node ∉ sibs) :
    previousSiblings h node =
      .error "Inconsistent parse5 tree: parent does not know about child" := by
  have hidx : jsIndexOf sibs node = -1 := by
    clear hc
    induction sibs with
    | nil => rfl
    | cons a as ih =>
        have hane : ¬(a = node) := fun e => hmem (by simp [e])
        have has : node ∉ as := fun e => hmem (by simp [e])
        rw [jsIndexOf]
        rw [if_neg hane, ih has]
        rfl
  unfold previousSiblings
  simp [hp, hc, hidx]

def exH6 : Heap :=
  [⟨"div", some [1, 2], none⟩,
   ⟨"a", some [], some 0⟩,
   ⟨"b", some [], some 0⟩,
   ⟨"c", some [], some 0⟩]

def exH6out : Heap :=
  [⟨"div", some [1], none⟩,
   ⟨"a", some [], some 0⟩,
   ⟨"b", some [], some 0⟩,
   ⟨"c", some [], none⟩]

/-- C6 counterexample: node 3 has its parent pointer set to node 0 but
is absent from node 0's children `[1, 2]`. `remove` does not raise any
error: `indexOf` yields `-1` and `splice(-1, 1)` silently deletes the
*last* child (node 2) and returns normally — the tree is mutated and no
error propagates, contrary to the claim. -/
theorem remove_missing_child_silent :
    (getN exH6 3).parentNode = some 0 ∧
    (3 ∉ childList exH6 0) ∧
    remove exH6 3 = some exH6out := ⟨rfl, by decide, by decide⟩

/-- C6 amended-theorem witness. -/
theorem previousSiblings_inconsistent_error_witness :
    previousSiblings exH6 3 =
      .error "Inconsistent parse5 tree: parent does not know about child" :=
  previousSiblings_inconsistent_error exH6 3 0 [1, 2] rfl rfl (by decide)

/-! ## Claim C3: the single-owner invariant is preserved

Helper access to the well-formedness clauses. -/

theorem WF.child_back {h : Heap} (hwf : WF h) {p c : Nat} (hp : p < h.length)
    (hc : c ∈ childList h p) :
    c < h.length ∧ (getN h c).parentNode = some p :=
  hwf.1 p (List.mem_range.mpr hp) c hc

theorem WF.childNodup {h : Heap} (hwf : WF h) {p : Nat} (hp : p < h.length) :
    (childList h p).Nodup :=
  hwf.2.1 p (List.mem_range.mpr hp)

theorem WF.parentOk {h : Heap} (hwf : WF h) {c : Nat} (hc : c < h.length) :
    parentOkB h c = true :=
  hwf.2.2 c (List.mem_range.mpr hc)

theorem parentOk_dest {h : Heap} {c p : Nat} (hb : parentOkB h c = true)
    (hp : (getN h c).parentNode = some p) :
    p < h.length ∧ (getN h p).childNodes.isSome = true ∧ c ∈ childList h p := by
  unfold parentOkB at hb
  rw [hp] at hb
  simp only [Bool.and_eq_true, decide_eq_true_eq] at hb
  exact ⟨hb.1.1, hb.1.2, hb.2⟩

theorem parentOk_of_none {h : Heap} {c : Nat}
    (hp : (getN h c).parentNode = none) : parentOkB h c = true := by
  unfold parentOkB
  rw [hp]

theorem parentOk_of_some {h : Heap} {c p : Nat}
    (hp : (getN h c).parentNode = some p) (h1 : p < h.length)
    (h2 : (getN h p).childNodes.isSome = true) (h3 : c ∈ childList h p) :
    parentOkB h c = true := by
  unfold parentOkB
  rw [hp]
  simp [h1, h2, h3]

theorem childList_setParent (h : Heap) (i : Nat) (p : Option Nat) (j : Nat) :
    childList (setParent h i p) j = childList h j := by
  unfold childList
  rw [childNodes_setParent]

theorem childList_setChildren_self {h : Heap} {i : Nat} (L : List Nat)
    (hi : i < h.length) : childList (setChildren h i (some L)) i = L := by
  unfold childList
  rw [childNodes_setChildren_self _ hi]
  rfl

theorem childList_setChildren_ne {h : Heap} {i j : Nat} (c : Option (List Nat))
    (hij : i ≠ j) : childList (setChildren h i c) j = childList h j := by
  unfold childList
  rw [childNodes_setChildren_ne _ hij]

theorem childList_out {h : Heap} {p : Nat} (hp : h.length ≤ p) :
    childList h p = [] := by
  unfold childList
  rw [getN_out hp]
  rfl

theorem fresh_of_parent_none {h : Heap} (hwf : WF h) {nn : Nat}
    (hp : (getN h nn).parentNode = none) : ∀ p, nn ∉ childList h p := by
  intro p hmem
  by_cases hplt : p < h.length
  · have hback := (hwf.child_back hplt hmem).2
    rw [hp] at hback
    exact Option.noConfusion hback
  · rw [childList_out (by omega)] at hmem
    exact absurd hmem (by simp)

/-! `indexOf` and `splice` arithmetic. -/

theorem jsIndexOf_mem_natCast {x : Nat} :
    ∀ {l : List Nat}, x ∈ l → ∃ k : Nat, jsIndexOf l x = (k : Int)
  | [], hm => absurd hm (by simp)
  | a :: as, hm => by
      by_cases ha : a = x
      · exact ⟨0, by simp [jsIndexOf, ha]⟩
      · have hmas : x ∈ as := by
          rcases List.mem_cons.mp hm with he | he
          · exact absurd he.symm ha
          · exact he
        obtain ⟨k, hk⟩ := jsIndexOf_mem_natCast hmas
        refine ⟨k + 1, ?_⟩
        rw [jsIndexOf]
        rw [if_neg ha]
        simp only [hk]
        rw [if_neg (by omega)]
        push_cast
        ring

theorem jsSplice_cons_succ (a : Nat) (as : List Nat) (k d : Nat)
    (items : List Nat) :
    jsSplice (a :: as) ((k : Int) + 1) d items =
      a :: jsSplice as (k : Int) d items := by
  unfold jsSplice
  rw [if_neg (by omega), if_neg (by omega)]
  have h1 : ((k : Int) + 1).toNat = k + 1 := by omega
  rw [h1, Int.toNat_natCast]
  have h2 : min (k + 1) (a :: as).length = min k as.length + 1 := by
    simp only [List.length_cons]
    omega
  rw [h2]
  have h3 : min k as.length + 1 + d = (min k as.length + d) + 1 := by omega
  simp only [h3, List.take_succ_cons, List.drop_succ_cons]
  simp

theorem jsSplice_indexOf_erase {x : Nat} :
    ∀ {l : List Nat}, x ∈ l → jsSplice l (jsIndexOf l x) 1 [] = l.erase x
  | [], hm => absurd hm (by simp)
  | a :: as, hm => by
      by_cases ha : a = x
      · have hidx : jsIndexOf (a :: as) x = 0 := by simp [jsIndexOf, ha]
        rw [hidx]
        have : jsSplice (a :: as) 0 1 [] = as := by
          unfold jsSplice
          simp
        rw [this, ha, List.erase_cons_head]
      · have hmas : x ∈ as := by
          rcases List.mem_cons.mp hm with he | he
          · exact absurd he.symm ha
          · exact he
        obtain ⟨k, hk⟩ := jsIndexOf_mem_natCast hmas
        have hidx : jsIndexOf (a :: as) x = (k : Int) + 1 := by
          rw [jsIndexOf]
          rw [if_neg ha]
          simp only [hk]
          rw [if_neg (by omega)]
        rw [hidx, jsSplice_cons_succ, ← hk, jsSplice_indexOf_erase hmas]
        rw [List.erase_cons, if_neg (by simpa using ha)]

theorem jsSplice_decomp (l : List Nat) (idx : Int) (d : Nat)
    (items : List Nat) :
    ∃ s, s ≤ l.length ∧
      jsSplice l idx d items = l.take s ++ items ++ l.drop (s + d) := by
  unfold jsSplice
  by_cases hneg : idx < 0
  · exact ⟨((l.length : Int) + idx).toNat, by omega, by rw [if_pos hneg]⟩
  · exact ⟨min idx.toNat l.length, by omega, by rw [if_neg hneg]⟩

/-- `remove` under well-formedness: the invariant is preserved, the
node ends up parentless and outside every child list, and every other
child list merely loses any occurrence of the node. -/
theorem remove_wf {h : Heap} {n : Nat} (hwf : WF h) {h₁ : Heap}
    (hr : remove h n = some h₁) :
    WF h₁ ∧ h₁.length = h.length ∧
    (getN h₁ n).parentNode = none ∧
    (∀ p, n ∉ childList h₁ p) ∧
    (∀ x l, (getN h x).childNodes = some l →
      ∃ l₁, (getN h₁ x).childNodes = some l₁ ∧
        ∀ c, c ∈ l₁ ↔ (c ∈ l ∧ c ≠ n)) ∧
    (∀ x, x ≠ n → (getN h₁ x).parentNode = (getN h x).parentNode) := by
  by_cases hnlt : n < h.length
  case neg =>
    -- out-of-heap node: default record, no parent, `remove` only runs
    -- the (no-op) `node.parentNode = null` store
    have hgd : getN h n = ⟨"", none, none⟩ := getN_out (by omega)
    unfold remove at hr
    rw [hgd] at hr
    simp only at hr
    have hset : setParent h n none = h := by
      unfold setParent setN
      rw [List.set_eq_of_length_le (by omega)]
    rw [hset] at hr
    injection hr with hr
    subst hr
    refine ⟨hwf, rfl, by rw [hgd], ?_, ?_, fun x _ => rfl⟩
    · exact fresh_of_parent_none hwf (by rw [hgd])
    · intro x l hx
      refine ⟨l, hx, fun c => ?_⟩
      have hxlt : x < h.length := lt_of_childNodes_some hx
      have hcl : childList h x = l := by unfold childList; rw [hx]; rfl
      constructor
      · intro hc
        refine ⟨hc, fun e => ?_⟩
        subst e
        exact absurd (hwf.child_back hxlt (by rw [hcl]; exact hc)).1 hnlt
      · exact fun hc => hc.1
  case pos =>
    cases hpn : (getN h n).parentNode with
    | none =>
        unfold remove at hr
        rw [hpn] at hr
        injection hr with hr
        subst hr
        have hfresh := fresh_of_parent_none hwf hpn
        refine ⟨?_, length_setParent h n none,
          parentNode_setParent_self none hnlt, ?_, ?_, ?_⟩
        · refine ⟨?_, ?_, ?_⟩
          · intro p hp c hc
            rw [length_setParent] at hp
            rw [childList_setParent] at hc
            have hback := hwf.child_back (List.mem_range.mp hp) hc
            have hcn : c ≠ n := by
              intro e
              subst e
              exact hfresh _ hc
            refine ⟨by rw [length_setParent]; exact hback.1, ?_⟩
            rw [parentNode_setParent_ne _ (fun e => hcn e.symm)]
            exact hback.2
          · intro p hp
            rw [childList_setParent]
            exact hwf.childNodup (by simpa [length_setParent] using hp)
          · intro c hc
            rw [length_setParent] at hc
            replace hc := List.mem_range.mp hc
            by_cases hcn : c = n
            · subst hcn
              exact parentOk_of_none (parentNode_setParent_self none hnlt)
            · have hb := hwf.parentOk hc
              cases hpc : (getN h c).parentNode with
              | none =>
                  exact parentOk_of_none
                    (by rw [parentNode_setParent_ne _ (fun e => hcn e.symm)];
                        exact hpc)
              | some p =>
                  obtain ⟨hp1, hp2, hp3⟩ := parentOk_dest hb hpc
                  refine parentOk_of_some
                    (by rw [parentNode_setParent_ne _ (fun e => hcn e.symm)];
                        exact hpc)
                    (by rw [length_setParent]; exact hp1) ?_ ?_
                  · rw [childNodes_setParent]
                    exact hp2
                  · rw [childList_setParent]
                    exact hp3
        · intro p
          rw [childList_setParent]
          exact hfresh p
        · intro x l hx
          refine ⟨l, by rw [childNodes_setParent]; exact hx, fun c => ?_⟩
          have hxlt : x < h.length := lt_of_childNodes_some hx
          have hcl : childList h x = l := by unfold childList; rw [hx]; rfl
          constructor
          · intro hc
            refine ⟨hc, fun e => ?_⟩
            subst e
            exact hfresh x (by rw [hcl]; exact hc)
          · exact fun hc => hc.1
        · intro x hx
          rw [parentNode_setParent_ne _ (fun e => hx e.symm)]
    | some q =>
        have hok := parentOk_dest (hwf.parentOk hnlt) hpn
        obtain ⟨hqlt, hqsome, hqmem⟩ := hok
        obtain ⟨sibs, hsibs⟩ := Option.isSome_iff_exists.mp hqsome
        have hmem : n ∈ sibs := by
          rw [childList, hsibs] at hqmem
          exact hqmem
        unfold remove at hr
        rw [hpn] at hr
        simp only [hsibs] at hr
        rw [jsSplice_indexOf_erase hmem] at hr
        injection hr with hr
        subst hr
        set h₂ := setChildren h q (some (sibs.erase n)) with hh₂
        have hlen₂ : h₂.length = h.length := length_setChildren h q _
        have hnodupq := hwf.childNodup hqlt
        have hnodupq' : sibs.Nodup := by
          rw [childList, hsibs] at hnodupq
          exact hnodupq
        -- child lists in h₂
        have hcl₂ : ∀ p, childList h₂ p =
            if p = q then sibs.erase n else childList h p := by
          intro p
          by_cases hpq : p = q
          · subst hpq
            rw [if_pos rfl, hh₂, childList_setChildren_self _ hqlt]
          · rw [if_neg hpq, hh₂, childList_setChildren_ne _ (fun e => hpq e.symm)]
        have hfresh₂ : ∀ p, n ∉ childList h₂ p := by
          intro p hmem₂
          rw [hcl₂] at hmem₂
          by_cases hpq : p = q
          · rw [if_pos hpq] at hmem₂
            exact (List.Nodup.mem_erase_iff hnodupq').mp hmem₂ |>.1 rfl
          · rw [if_neg hpq] at hmem₂
            by_cases hplt : p < h.length
            · have := (hwf.child_back hplt hmem₂).2
              rw [hpn] at this
              injection this with this
              exact hpq this.symm
            · rw [childList_out (by omega)] at hmem₂
              exact absurd hmem₂ (by simp)
        refine ⟨?_, by rw [length_setParent, hlen₂],
          parentNode_setParent_self none (by rw [hlen₂]; exact hnlt), ?_, ?_, ?_⟩
        · refine ⟨?_, ?_, ?_⟩
          · intro p hp c hc
            rw [length_setParent, hlen₂] at hp
            replace hp := List.mem_range.mp hp
            rw [childList_setParent, hcl₂] at hc
            have hcmem : c ∈ childList h p ∧ c ≠ n := by
              by_cases hpq : p = q
              · rw [if_pos hpq] at hc
                subst hpq
                have := (List.Nodup.mem_erase_iff hnodupq').mp hc
                refine ⟨by rw [childList, hsibs]; exact this.2, this.1⟩
              · rw [if_neg hpq] at hc
                refine ⟨hc, fun e => ?_⟩
                subst e
                have := (hwf.child_back hp hc).2
                rw [hpn] at this
                injection this with this
                exact hpq this.symm
            have hback := hwf.child_back hp hcmem.1
            refine ⟨by rw [length_setParent, hlen₂]; exact hback.1, ?_⟩
            rw [parentNode_setParent_ne _ (fun e => hcmem.2 e.symm), hh₂,
              parentNode_setChildren]
            exact hback.2
          · intro p hp
            rw [childList_setParent, hcl₂]
            by_cases hpq : p = q
            · rw [if_pos hpq]
              exact hnodupq'.erase n
            · rw [if_neg hpq]
              rw [length_setParent, hlen₂] at hp
              exact hwf.childNodup (List.mem_range.mp hp)
          · intro c hc
            rw [length_setParent, hlen₂] at hc
            replace hc := List.mem_range.mp hc
            by_cases hcn : c = n
            · subst hcn
              exact parentOk_of_none
                (parentNode_setParent_self none (by rw [hlen₂]; exact hc))
            · have hparc : (getN (setParent h₂ n none) c).parentNode =
                  (getN h c).parentNode := by
                rw [parentNode_setParent_ne _ (fun e => hcn e.symm), hh₂,
                  parentNode_setChildren]
              cases hpc : (getN h c).parentNode with
              | none => exact parentOk_of_none (by rw [hparc]; exact hpc)
              | some p =>
                  obtain ⟨hp1, hp2, hp3⟩ := parentOk_dest (hwf.parentOk hc) hpc
                  refine parentOk_of_some (by rw [hparc]; exact hpc)
                    (by rw [length_setParent, hlen₂]; exact hp1) ?_ ?_
                  · rw [childNodes_setParent]
                    by_cases hpq : p = q
                    · subst hpq
                      rw [hh₂, childNodes_setChildren_self _ hqlt]
                      rfl
                    · rw [hh₂, childNodes_setChildren_ne _ (fun e => hpq e.symm)]
                      exact hp2
                  · rw [childList_setParent, hcl₂]
                    by_cases hpq : p = q
                    · subst hpq
                      rw [if_pos rfl]
                      refine (List.Nodup.mem_erase_iff hnodupq').mpr ⟨hcn, ?_⟩
                      rw [childList, hsibs] at hp3
                      exact hp3
                    · rw [if_neg hpq]
                      exact hp3
        · intro p
          rw [childList_setParent]
          exact hfresh₂ p
        · intro x l hx
          have hxlt : x < h.length := lt_of_childNodes_some hx
          by_cases hxq : x = q
          · subst hxq
            have hlx : l = sibs := by
              rw [hx] at hsibs
              injection hsibs
            subst hlx
            refine ⟨l.erase n, ?_, fun c => ?_⟩
            · rw [childNodes_setParent, hh₂, childNodes_setChildren_self _ hqlt]
            · rw [List.Nodup.mem_erase_iff hnodupq']
              constructor
              · exact fun hcc => ⟨hcc.2, hcc.1⟩
              · exact fun hcc => ⟨hcc.2, hcc.1⟩
          · refine ⟨l, ?_, fun c => ?_⟩
            · rw [childNodes_setParent, hh₂,
                childNodes_setChildren_ne _ (fun e => hxq e.symm)]
              exact hx
            · have hcl : childList h x = l := by unfold childList; rw [hx]; rfl
              constructor
              · intro hcc
                refine ⟨hcc, fun e => ?_⟩
                subst e
                have := (hwf.child_back hxlt (by rw [hcl]; exact hcc)).2
                rw [hpn] at this
                injection this with this
                exact hxq this.symm
              · exact fun hcc => hcc.1
        · intro x hx
          rw [parentNode_setParent_ne _ (fun e => hx e.symm), hh₂,
            parentNode_setChildren]

/-- Inserting a parentless, nowhere-contained node `nn` into `P`'s
child list (at any clamped position `s`) and pointing its parent
back-reference at `P` preserves well-formedness. This is the `splice`
plus `forEach` step of `insertNode` for a non-fragment node after its
detach, with `replace` unset. -/
theorem wf_insert_only {h₁ : Heap} (hwf : WF h₁) {P nn : Nat}
    {l₁ : List Nat}
    (hPc : (getN h₁ P).childNodes = some l₁)
    (hnn_lt : nn < h₁.length)
    (hfresh : ∀ p, nn ∉ childList h₁ p)
    (s : Nat) :
    WF (setParent (setChildren h₁ P
      (some (l₁.take s ++ [nn] ++ l₁.drop s))) nn (some P)) := by
  have hPlt : P < h₁.length := lt_of_childNodes_some hPc
  have hclP : childList h₁ P = l₁ := by unfold childList; rw [hPc]; rfl
  have hnotmem : nn ∉ l₁ := by rw [← hclP]; exact hfresh P
  have hnodup : l₁.Nodup := by rw [← hclP]; exact hwf.childNodup hPlt
  set L := l₁.take s ++ [nn] ++ l₁.drop s with hL
  have hLcons : L = l₁.take s ++ nn :: l₁.drop s := by simp [hL]
  have hperm : List.Perm L (nn :: l₁) := by
    rw [hLcons]
    have hmid : List.Perm (l₁.take s ++ nn :: l₁.drop s)
        (nn :: (l₁.take s ++ l₁.drop s)) := List.perm_middle
    rw [List.take_append_drop] at hmid
    exact hmid
  have hmemL : ∀ c, c ∈ L ↔ (c = nn ∨ c ∈ l₁) := fun c => by
    rw [hperm.mem_iff]
    simp
  set h₂ := setChildren h₁ P (some L) with hh₂
  set h₃ := setParent h₂ nn (some P) with hh₃
  have hlen : h₃.length = h₁.length := by
    rw [hh₃, length_setParent, hh₂, length_setChildren]
  have hcl : ∀ p, childList h₃ p = if p = P then L else childList h₁ p := by
    intro p
    rw [hh₃, childList_setParent]
    by_cases hpP : p = P
    · subst hpP
      rw [if_pos rfl, hh₂, childList_setChildren_self _ hPlt]
    · rw [if_neg hpP, hh₂, childList_setChildren_ne _ (fun e => hpP e.symm)]
  have hpar : ∀ c, c ≠ nn →
      (getN h₃ c).parentNode = (getN h₁ c).parentNode := by
    intro c hcn
    rw [hh₃, parentNode_setParent_ne _ (fun e => hcn e.symm), hh₂,
      parentNode_setChildren]
  have hparnn : (getN h₃ nn).parentNode = some P := by
    rw [hh₃]
    exact parentNode_setParent_self _ (by rw [hh₂, length_setChildren]; exact hnn_lt)
  have hchn : ∀ p, (getN h₃ p).childNodes =
      if p = P then some L else (getN h₁ p).childNodes := by
    intro p
    rw [hh₃, childNodes_setParent]
    by_cases hpP : p = P
    · subst hpP
      rw [if_pos rfl, hh₂, childNodes_setChildren_self _ hPlt]
    · rw [if_neg hpP, hh₂, childNodes_setChildren_ne _ (fun e => hpP e.symm)]
  refine ⟨?_, ?_, ?_⟩
  · intro p hp c hc
    rw [hlen] at hp
    replace hp := List.mem_range.mp hp
    rw [hcl] at hc
    by_cases hpP : p = P
    · subst hpP
      rw [if_pos rfl] at hc
      rcases (hmemL c).mp hc with hcn | hcl₁
      · subst hcn
        exact ⟨by rw [hlen]; exact hnn_lt, hparnn⟩
      · have hcn : c ≠ nn := fun e => hnotmem (e ▸ hcl₁)
        have hback := hwf.child_back hp (by rw [hclP]; exact hcl₁)
        exact ⟨by rw [hlen]; exact hback.1, by rw [hpar c hcn]; exact hback.2⟩
    · rw [if_neg hpP] at hc
      have hcn : c ≠ nn := fun e => hfresh p (e ▸ hc)
      have hback := hwf.child_back hp hc
      exact ⟨by rw [hlen]; exact hback.1, by rw [hpar c hcn]; exact hback.2⟩
  · intro p hp
    rw [hcl]
    by_cases hpP : p = P
    · rw [if_pos hpP]
      rw [hperm.nodup_iff, List.nodup_cons]
      exact ⟨hnotmem, hnodup⟩
    · rw [if_neg hpP]
      rw [hlen] at hp
      exact hwf.childNodup (List.mem_range.mp hp)
  · intro c hc
    rw [hlen] at hc
    replace hc := List.mem_range.mp hc
    by_cases hcn : c = nn
    · subst hcn
      refine parentOk_of_some hparnn (by rw [hlen]; exact hPlt) ?_ ?_
      · rw [hchn, if_pos rfl]
        rfl
      · rw [childList, hchn, if_pos rfl]
        exact (hmemL c).mpr (Or.inl rfl)
    · cases hpc : (getN h₁ c).parentNode with
      | none => exact parentOk_of_none (by rw [hpar c hcn]; exact hpc)
      | some p =>
          obtain ⟨hp1, hp2, hp3⟩ := parentOk_dest (hwf.parentOk hc) hpc
          refine parentOk_of_some (by rw [hpar c hcn]; exact hpc)
            (by rw [hlen]; exact hp1) ?_ ?_
          · rw [hchn]
            by_cases hpP : p = P
            · rw [if_pos hpP]
              rfl
            · rw [if_neg hpP]
              exact hp2
          · rw [childList, hchn]
            by_cases hpP : p = P
            · subst hpP
              rw [if_pos rfl]
              exact (hmemL c).mpr (Or.inr (by rw [← hclP]; exact hp3))
            · rw [if_neg hpP]
              exact hp3

/-- The `replace` variant of the splice step: the occupant `r` of the
target position is spliced out and its parent back-reference nulled
after `nn`'s is set; well-formedness is preserved. -/
theorem wf_replace_step {h₁ : Heap} (hwf : WF h₁) {P nn : Nat}
    {l₁ : List Nat}
    (hPc : (getN h₁ P).childNodes = some l₁)
    (hnn_lt : nn < h₁.length)
    (hfresh : ∀ p, nn ∉ childList h₁ p)
    (s : Nat) (hs : s < l₁.length) :
    WF (setParent (setParent (setChildren h₁ P
      (some (l₁.take s ++ [nn] ++ l₁.drop (s + 1)))) nn (some P))
      (l₁.get ⟨s, hs⟩) none) := by
  have hPlt : P < h₁.length := lt_of_childNodes_some hPc
  have hclP : childList h₁ P = l₁ := by unfold childList; rw [hPc]; rfl
  have hnotmem : nn ∉ l₁ := by rw [← hclP]; exact hfresh P
  have hnodup : l₁.Nodup := by rw [← hclP]; exact hwf.childNodup hPlt
  set r := l₁.get ⟨s, hs⟩ with hr
  set E := l₁.take s ++ l₁.drop (s + 1) with hE
  set L := l₁.take s ++ [nn] ++ l₁.drop (s + 1) with hL
  have hsplit : l₁.take s ++ r :: l₁.drop (s + 1) = l₁ := by
    rw [hr]
    simp
  have hpermE : List.Perm l₁ (r :: E) := by
    conv_lhs => rw [← hsplit]
    rw [hE]
    exact List.perm_middle
  have hpermL : List.Perm L (nn :: E) := by
    rw [hL, hE]
    have h0 : l₁.take s ++ [nn] ++ l₁.drop (s + 1) =
        l₁.take s ++ nn :: l₁.drop (s + 1) := by simp
    rw [h0]
    exact List.perm_middle
  have hrE : r ∉ E ∧ E.Nodup := by
    have := hpermE.nodup_iff.mp hnodup
    rw [List.nodup_cons] at this
    exact this
  have hrl₁ : r ∈ l₁ := by
    rw [hr]
    exact List.get_mem l₁ s hs
  have hrback := hwf.child_back hPlt (by rw [hclP]; exact hrl₁)
  have hnr : nn ≠ r := fun e => hnotmem (e ▸ hrl₁)
  have hmemE_l₁ : ∀ c, c ∈ E → c ∈ l₁ := fun c hc =>
    hpermE.mem_iff.mpr (by simp [hc])
  have hnnE : nn ∉ E := fun hc => hnotmem (hmemE_l₁ nn hc)
  have hmemL : ∀ c, c ∈ L ↔ (c = nn ∨ c ∈ E) := fun c => by
    rw [hpermL.mem_iff]
    simp
  have hmeml₁ : ∀ c, c ∈ l₁ ↔ (c = r ∨ c ∈ E) := fun c => by
    rw [hpermE.mem_iff]
    simp
  set h₂ := setChildren h₁ P (some L) with hh₂
  set h₃ := setParent h₂ nn (some P) with hh₃
  set h₄ := setParent h₃ r none with hh₄
  have hlen : h₄.length = h₁.length := by
    rw [hh₄, length_setParent, hh₃, length_setParent, hh₂, length_setChildren]
  have hcl : ∀ p, childList h₄ p = if p = P then L else childList h₁ p := by
    intro p
    rw [hh₄, childList_setParent, hh₃, childList_setParent]
    by_cases hpP : p = P
    · subst hpP
      rw [if_pos rfl, hh₂, childList_setChildren_self _ hPlt]
    · rw [if_neg hpP, hh₂, childList_setChildren_ne _ (fun e => hpP e.symm)]
  have hchn : ∀ p, (getN h₄ p).childNodes =
      if p = P then some L else (getN h₁ p).childNodes := by
    intro p
    rw [hh₄, childNodes_setParent, hh₃, childNodes_setParent]
    by_cases hpP : p = P
    · subst hpP
      rw [if_pos rfl, hh₂, childNodes_setChildren_self _ hPlt]
    · rw [if_neg hpP, hh₂, childNodes_setChildren_ne _ (fun e => hpP e.symm)]
  have hpar : ∀ c, c ≠ nn → c ≠ r →
      (getN h₄ c).parentNode = (getN h₁ c).parentNode := by
    intro c hcn hcr
    rw [hh₄, parentNode_setParent_ne _ (fun e => hcr e.symm), hh₃,
      parentNode_setParent_ne _ (fun e => hcn e.symm), hh₂,
      parentNode_setChildren]
  have hparnn : (getN h₄ nn).parentNode = some P := by
    rw [hh₄, parentNode_setParent_ne _ (fun e => hnr e.symm), hh₃]
    exact parentNode_setParent_self _
      (by rw [hh₂, length_setChildren]; exact hnn_lt)
  have hparr : (getN h₄ r).parentNode = none := by
    rw [hh₄]
    exact parentNode_setParent_self _
      (by rw [hh₃, length_setParent, hh₂, length_setChildren]; exact hrback.1)
  refine ⟨?_, ?_, ?_⟩
  · intro p hp c hc
    rw [hlen] at hp
    replace hp := List.mem_range.mp hp
    rw [hcl] at hc
    by_cases hpP : p = P
    · subst hpP
      rw [if_pos rfl] at hc
      rcases (hmemL c).mp hc with hcn | hcE
      · subst hcn
        exact ⟨by rw [hlen]; exact hnn_lt, hparnn⟩
      · have hcl₁ : c ∈ l₁ := hmemE_l₁ c hcE
        have hcn : c ≠ nn := fun e => hnnE (e ▸ hcE)
        have hcr : c ≠ r := fun e => hrE.1 (e ▸ hcE)
        have hback := hwf.child_back hp (by rw [hclP]; exact hcl₁)
        exact ⟨by rw [hlen]; exact hback.1,
          by rw [hpar c hcn hcr]; exact hback.2⟩
    · rw [if_neg hpP] at hc
      have hcn : c ≠ nn := fun e => hfresh p (e ▸ hc)
      have hback := hwf.child_back hp hc
      have hcr : c ≠ r := by
        intro e
        subst e
        rw [hrback.2] at hback
        exact hpP (Option.some.inj hback.2).symm
      exact ⟨by rw [hlen]; exact hback.1,
        by rw [hpar c hcn hcr]; exact hback.2⟩
  · intro p hp
    rw [hcl]
    by_cases hpP : p = P
    · rw [if_pos hpP]
      rw [hpermL.nodup_iff, List.nodup_cons]
      exact ⟨hnnE, hrE.2⟩
    · rw [if_neg hpP]
      rw [hlen] at hp
      exact hwf.childNodup (List.mem_range.mp hp)
  · intro c hc
    rw [hlen] at hc
    replace hc := List.mem_range.mp hc
    by_cases hcr : c = r
    · subst hcr
      exact parentOk_of_none hparr
    · by_cases hcn : c = nn
      · subst hcn
        refine parentOk_of_some hparnn (by rw [hlen]; exact hPlt) ?_ ?_
        · rw [hchn, if_pos rfl]
          rfl
        · rw [childList, hchn, if_pos rfl]
          exact (hmemL _).mpr (Or.inl rfl)
      · cases hpc : (getN h₁ c).parentNode with
        | none => exact parentOk_of_none (by rw [hpar c hcn hcr]; exact hpc)
        | some p =>
            obtain ⟨hp1, hp2, hp3⟩ := parentOk_dest (hwf.parentOk hc) hpc
            refine parentOk_of_some (by rw [hpar c hcn hcr]; exact hpc)
              (by rw [hlen]; exact hp1) ?_ ?_
            · rw [hchn]
              by_cases hpP : p = P
              · rw [if_pos hpP]
                rfl
              · rw [if_neg hpP]
                exact hp2
            · rw [childList, hchn]
              by_cases hpP : p = P
              · subst hpP
                rw [if_pos rfl]
                refine (hmemL c).mpr (Or.inr ?_)
                have hcl₁ : c ∈ l₁ := by rw [← hclP]; exact hp3
                rcases (hmeml₁ c).mp hcl₁ with he | he
                · exact absurd he hcr
                · exact he
              · rw [if_neg hpP]
                exact hp3

theorem jsGetElem_natCast (l : List Nat) (k : Nat) :
    jsGetElem l (k : Int) = l[k]? := by
  unfold jsGetElem
  rw [if_pos (by omega), Int.toNat_natCast]

theorem jsSplice_natCast (l : List Nat) (k d : Nat) (items : List Nat) :
    jsSplice l (k : Int) d items =
      l.take (min k l.length) ++ items ++ l.drop (min k l.length + d) := by
  unfold jsSplice
  rw [if_neg (by omega), Int.toNat_natCast]

theorem remove_succeeds {h : Heap} (hwf : WF h) (nn : Nat)
    (hlt : nn < h.length) : ∃ h₁, remove h nn = some h₁ := by
  cases hpn : (getN h nn).parentNode with
  | none =>
      refine ⟨setParent h nn none, ?_⟩
      unfold remove
      rw [hpn]
  | some q =>
      obtain ⟨hq1, hq2, hq3⟩ := parentOk_dest (hwf.parentOk hlt) hpn
      obtain ⟨sibs, hsibs⟩ := Option.isSome_iff_exists.mp hq2
      refine ⟨setParent (setChildren h q
        (some (jsSplice sibs (jsIndexOf sibs nn) 1 []))) nn none, ?_⟩
      unfold remove
      rw [hpn]
      simp [hsibs]

/-- Reduction of `insertNode` on a non-fragment node (the detach step
ran as `remove`), `replace` unset. -/
theorem insertNode_nonfrag_false_eq (h : Heap) (P nn : Nat) (idx : Int)
    {h₁ : Heap} {l₁ : List Nat}
    (hnf : isDocumentFragmentN (getN h nn) = false)
    (hrm : remove h nn = some h₁)
    (hPc1 : (getN h₁ P).childNodes = some l₁) :
    insertNode h P idx nn false =
      some (setParent (setChildren h₁ P
        (some (jsSplice l₁ idx 0 [nn]))) nn (some P)) := by
  unfold insertNode
  simp [hnf, hrm, hPc1, setParents]

/-- Reduction of `insertNode` on a non-fragment node, `replace` set
(the occupant of the recomputed index, when any, has its parent nulled
last). -/
theorem insertNode_nonfrag_true_eq (h : Heap) (P nn : Nat) (idx : Int)
    {l : List Nat} {h₁ : Heap} {l₁ : List Nat}
    (hnf : isDocumentFragmentN (getN h nn) = false)
    (hPc : (getN h P).childNodes = some l)
    (hrm : remove h nn = some h₁)
    (hPc1 : (getN h₁ P).childNodes = some l₁) :
    insertNode h P idx nn true =
      some (match jsGetElem l₁ idx with
            | some r => setParent (setParent (setChildren h₁ P
                (some (jsSplice l₁ idx 1 [nn]))) nn (some P)) r none
            | none => setParent (setChildren h₁ P
                (some (jsSplice l₁ idx 1 [nn]))) nn (some P)) := by
  unfold insertNode
  simp [hnf, hPc, hrm, hPc1, setParents]

/-- C3: the single-owner invariant — every node is contained in at most
one parent's `childNodes`, exactly once, with its `parentNode`
back-reference matching its container — is preserved by `remove` and,
for a non-fragment node `nn` (which the insertion routine first
detaches from any current parent), by `insertBefore`, `append` and
`replace`; in particular a `remove` followed by an `append` of the same
node to a different parent leaves exactly one owning parent. -/
theorem single_owner_preserved (h : Heap) (n P rf old nn : Nat)
    (hwf : WF h)
    (hnn_lt : nn < h.length)
    (hnf : isDocumentFragmentN (getN h nn) = false) :
    (∀ h₂, remove h n = some h₂ → WF h₂) ∧
    (∀ h₂, insertBefore h P rf nn = some h₂ → WF h₂) ∧
    (∀ h₂, append h P nn = some h₂ → WF h₂) ∧
    (∀ h₂, replace h old nn = some h₂ → WF h₂) := by
  obtain ⟨h₁, hrm⟩ := remove_succeeds hwf nn hnn_lt
  obtain ⟨hwf₁, hlen₁, hpar₁, hfresh₁, htrans₁, hparkeep₁⟩ := remove_wf hwf hrm
  have hnn_lt₁ : nn < h₁.length := by rw [hlen₁]; exact hnn_lt
  refine ⟨?_, ?_, ?_, ?_⟩
  · intro h₂ hr
    exact (remove_wf hwf hr).1
  · intro h₂ hr
    unfold insertBefore at hr
    cases hPc : (getN h P).childNodes with
    | none => rw [hPc] at hr; exact absurd hr (by simp)
    | some l =>
        rw [hPc] at hr
        simp only at hr
        obtain ⟨l₁, hPc1, _⟩ := htrans₁ P l hPc
        rw [insertNode_nonfrag_false_eq h P nn _ hnf hrm hPc1] at hr
        injection hr with hr
        obtain ⟨s, hsle, hsp⟩ := jsSplice_decomp l₁ (jsIndexOf l rf) 0 [nn]
        rw [Nat.add_zero] at hsp
        rw [← hr, hsp]
        exact wf_insert_only hwf₁ hPc1 hnn_lt₁ hfresh₁ s
  · intro h₂ hr
    unfold append at hr
    cases hPc : (getN h P).childNodes with
    | none => rw [hPc] at hr; exact absurd hr (by simp)
    | some l =>
        rw [hPc] at hr
        simp only at hr
        obtain ⟨l₁, hPc1, _⟩ := htrans₁ P l hPc
        rw [insertNode_nonfrag_false_eq h P nn _ hnf hrm hPc1] at hr
        injection hr with hr
        obtain ⟨s, hsle, hsp⟩ := jsSplice_decomp l₁ ((l.length : Nat) : Int) 0 [nn]
        rw [Nat.add_zero] at hsp
        rw [← hr, hsp]
        exact wf_insert_only hwf₁ hPc1 hnn_lt₁ hfresh₁ s
  · intro h₂ hr
    unfold replace at hr
    cases hpo : (getN h old).parentNode with
    | none => rw [hpo] at hr; exact absurd hr (by simp)
    | some po =>
        rw [hpo] at hr
        simp only at hr
        cases hpoc : (getN h po).childNodes with
        | none => rw [hpoc] at hr; exact absurd hr (by simp)
        | some l =>
            rw [hpoc] at hr
            simp only at hr
            have hold_lt : old < h.length := lt_of_parentNode_some hpo
            obtain ⟨hq1, hq2, hq3⟩ := parentOk_dest (hwf.parentOk hold_lt) hpo
            have holdmem : old ∈ l := by
              rw [childList, hpoc] at hq3
              exact hq3
            obtain ⟨k, hk⟩ := jsIndexOf_mem_natCast holdmem
            obtain ⟨l₁, hPc1, _⟩ := htrans₁ po l hpoc
            rw [insertNode_nonfrag_true_eq h po nn _ hnf hpoc hrm hPc1] at hr
            rw [hk] at hr
            rw [jsGetElem_natCast, jsSplice_natCast] at hr
            by_cases hklen : k < l₁.length
            · rw [List.getElem?_eq_getElem hklen] at hr
              simp only at hr
              injection hr with hr
              rw [← hr]
              have hmin : min k l₁.length = k := by omega
              rw [hmin]
              have hget : l₁[k] = l₁.get ⟨k, hklen⟩ := rfl
              rw [hget]
              exact wf_replace_step hwf₁ hPc1 hnn_lt₁ hfresh₁ k hklen
            · rw [List.getElem?_eq_none (by omega)] at hr
              simp only at hr
              injection hr with hr
              rw [← hr]
              have hmin : min k l₁.length = l₁.length := by omega
              rw [hmin]
              have hdrop : l₁.drop (l₁.length + 1) = l₁.drop l₁.length := by
                rw [List.drop_eq_nil_of_le (by omega),
                  List.drop_eq_nil_of_le (by omega)]
              rw [hdrop]
              exact wf_insert_only hwf₁ hPc1 hnn_lt₁ hfresh₁ l₁.length

def exH3 : Heap :=
  [⟨"div", some [1], none⟩,
   ⟨"span", some [], some 0⟩,
   ⟨"section", some [], none⟩]

def exH3out : Heap :=
  [⟨"div", some [], none⟩,
   ⟨"span", some [], some 2⟩,
   ⟨"section", some [1], none⟩]

/-- C3 witness: appending the span (currently owned by the div) to the
section first detaches it from the div; the resulting heap is
well-formed — the span has exactly one owning parent. -/
theorem single_owner_preserved_witness :
    append exH3 2 1 = some exH3out ∧ WF exH3out :=
  ⟨by decide,
   (single_owner_preserved exH3 0 2 0 0 1 (by decide) (by decide)
      (by decide)).2.2.1 exH3out (by decide)⟩

end Dom5
